import Mathlib

/-!
Verification of the compressed (radix) trie in `trie.py`.

The Python trie is shallowly embedded: nodes become a nested inductive
type, the mutating methods become pure functions returning the updated
tree, and the `dict` of children becomes an association list keyed by the
first character of each child's fragment (Python dict updates keep the
position of an existing key and append new keys at the end, which the
association-list operations below reproduce).
-/

set_option autoImplicit false

namespace TrieVerify

/-- A trie node, mirroring `_TrieNode` in `trie.py`.  Values of the Python
program are modelled as `Option α`: `none` is Python's `None` (also the
"absent" result of `search`), `some a` is a real payload. -/
inductive Node (α : Type) : Type where
  | mk (children : List (Char × Node α)) (is_end : Bool) (value : Option α) (fragment : List Char)

variable {α : Type}

def Node.children : Node α → List (Char × Node α)
  | .mk cs _ _ _ => cs

def Node.is_end : Node α → Bool
  | .mk _ e _ _ => e

def Node.value : Node α → Option α
  | .mk _ _ v _ => v

def Node.fragment : Node α → List Char
  | .mk _ _ _ f => f

@[simp] theorem Node.children_mk (cs : List (Char × Node α)) (e : Bool) (v : Option α)
    (f : List Char) : (Node.mk cs e v f).children = cs := rfl

@[simp] theorem Node.is_end_mk (cs : List (Char × Node α)) (e : Bool) (v : Option α)
    (f : List Char) : (Node.mk cs e v f).is_end = e := rfl

@[simp] theorem Node.value_mk (cs : List (Char × Node α)) (e : Bool) (v : Option α)
    (f : List Char) : (Node.mk cs e v f).value = v := rfl

@[simp] theorem Node.fragment_mk (cs : List (Char × Node α)) (e : Bool) (v : Option α)
    (f : List Char) : (Node.mk cs e v f).fragment = f := rfl

/-- Length of the longest common prefix of two character lists; this is the
value of `j` computed by the scanning loops in `insert` and `_find_node`. -/
def commonPrefixLen : List Char → List Char → Nat
  | a :: as, b :: bs => if a = b then commonPrefixLen as bs + 1 else 0
  | _, _ => 0

mutual

/-- `_find_node` of `trie.py`: walk the trie following `key`, returning the
landing node.  `findNodeC` scans the child list for the edge whose first
character is `c` (the `char in node.children` dictionary lookup). -/
def findNode : Node α → List Char → Option (Node α)
  | n, [] => some n
  | .mk cs _ _ _, c :: rest => findNodeC cs c (c :: rest)

def findNodeC : List (Char × Node α) → Char → List Char → Option (Node α)
  | [], _, _ => none
  | (c', child) :: cstail, c, key =>
    if c' = c then
      let j := commonPrefixLen key child.fragment
      if j < child.fragment.length then
        -- inside a compressed edge: return the child iff the key is consumed
        if j = key.length then some child else none
      else
        findNode child (key.drop j)
    else
      findNodeC cstail c key

end

/-- Update an association list the way a Python `dict` assignment does:
replace the entry for `c` in place if present, otherwise append at the end. -/
def setChild (c : Char) (n : Node α) : List (Char × Node α) → List (Char × Node α)
  | [] => [(c, n)]
  | (c', n') :: rest => if c' = c then (c, n) :: rest else (c', n') :: setChild c n rest

mutual

/-- `Trie.insert` of `trie.py`, acting on a node: returns the updated node
together with the "a new key was added" flag (the `self._size += 1` events). -/
def insertN : Node α → List Char → Option α → Node α × Bool
  | .mk cs e _ f, [], newv => (Node.mk cs true newv f, !e)
  | .mk cs e v f, c :: rest, newv =>
    let r := insertC cs c (c :: rest) newv
    (Node.mk r.1 e v f, r.2)

/-- The body of insert's while-loop: scan the child list for the edge starting
with `c`; if absent attach a new leaf, if the whole fragment matches descend,
otherwise split the edge. -/
def insertC : List (Char × Node α) → Char → List Char → Option α → List (Char × Node α) × Bool
  | [], c, key, newv => ([(c, Node.mk [] true newv key)], true)
  | (c', child) :: cstail, c, key, newv =>
    if c' = c then
      let frag := child.fragment
      let j := commonPrefixLen key frag
      if j = frag.length then
        -- the entire fragment matched: descend into the child
        let r := insertN child (key.drop j) newv
        ((c, r.1) :: cstail, r.2)
      else
        -- partial match: split the existing edge
        let child2 := Node.mk child.children child.is_end child.value (frag.drop j)
        let fc := (frag.drop j).headD c
        if j = key.length then
          ((c, Node.mk [(fc, child2)] true newv (frag.take j)) :: cstail, true)
        else
          let rem := key.drop j
          let leaf := Node.mk [] true newv rem
          ((c, Node.mk (setChild (rem.headD c) leaf [(fc, child2)]) false none (frag.take j))
              :: cstail, true)
    else
      let r := insertC cstail c key newv
      ((c', child) :: r.1, r.2)

end

mutual

/-- The key-membership walk: fully consume `key` fragment by fragment
(`key[i:].startswith(fragment)` steps, as in `Trie.delete`) and test the
terminal flag of the landing node.  By the invariants of the data model this
says exactly "the concatenation of fragments along some root-to-terminal
path equals `key`", i.e. `key` is a stored key. -/
def storedN : Node α → List Char → Bool
  | n, [] => n.is_end
  | .mk cs _ _ _, c :: rest => storedC cs c (c :: rest)

/-- Child-list scan for `storedN`. -/
def storedC : List (Char × Node α) → Char → List Char → Bool
  | [], _, _ => false
  | (c', child) :: cstail, c, key =>
    if c' = c then
      child.fragment.isPrefixOf key && storedN child (key.drop child.fragment.length)
    else storedC cstail c key

end

/-- The single-child merge step at the end of `Trie.delete`: absorb the only
child into the current node (append its fragment, adopt its children,
terminal flag and value).  Only called on a singleton child list. -/
def mergeNode (cs : List (Char × Node α)) (f : List Char) : Node α :=
  match cs with
  | (_, child) :: _ => Node.mk child.children child.is_end child.value (f ++ child.fragment)
  | [] => Node.mk [] false none f

/-- Cleanup applied at the node where a key was just unmarked (`delete`):
prune it when it became a childless non-terminal non-root node (`none`
means "remove me from the parent"), merge it when it is a non-root
non-terminal node with exactly one child, otherwise keep it. -/
def afterDelete (cs : List (Char × Node α)) (f : List Char) (isRoot : Bool) : Option (Node α) :=
  if cs.isEmpty && !isRoot then none
  else if cs.length == 1 && !isRoot then some (mergeNode cs f)
  else some (Node.mk cs false none f)

mutual

/-- `Trie.delete` of `trie.py`, acting on a node.  Result: `none` when the
walk fails (the key is not stored, nothing is mutated); `some none` when this
node must be removed from its parent (the bottom-up prune loop); and
`some (some n)` when this node is replaced by `n` (pruning stopped at or
below this node, with the single-child merge already applied). -/
def deleteN : Node α → List Char → Bool → Option (Option (Node α))
  | .mk cs e _ f, [], isRoot =>
    if e then some (afterDelete cs f isRoot) else none
  | .mk cs e v f, c :: rest, isRoot =>
    match deleteC cs c (c :: rest) with
    | none => none
    | some (true, cs') =>
      -- the child edge was just pruned: this node is now the prune/merge point
      if cs'.isEmpty && !e && !isRoot then some none
      else if cs'.length == 1 && !e && !isRoot then some (some (mergeNode cs' f))
      else some (some (Node.mk cs' e v f))
    | some (false, cs') => some (some (Node.mk cs' e v f))

/-- Child-list scan for `deleteN`: the boolean in the result tells the caller
whether its child was removed (so the caller is the current prune point). -/
def deleteC : List (Char × Node α) → Char → List Char → Option (Bool × List (Char × Node α))
  | [], _, _ => none
  | (c', child) :: cstail, c, key =>
    if c' = c then
      if child.fragment.isPrefixOf key then
        match deleteN child (key.drop child.fragment.length) false with
        | none => none
        | some none => some (true, cstail)
        | some (some child') => some (false, (c, child') :: cstail)
      else none
    else
      match deleteC cstail c key with
      | none => none
      | some (b, cs') => some (b, (c', child) :: cs')

end

/-- Insert an entry into a child list sorted by edge character. -/
def insertSorted (p : Char × Node α) : List (Char × Node α) → List (Char × Node α)
  | [] => [p]
  | q :: rest => if p.1 ≤ q.1 then p :: q :: rest else q :: insertSorted p rest

/-- `sorted(node.children)` of the enumeration: child entries in ascending
order of their edge character (the Python code sorts descending and pushes
onto a stack, so entries are popped in ascending order). -/
def sortChildren : List (Char × Node α) → List (Char × Node α)
  | [] => []
  | p :: rest => insertSorted p (sortChildren rest)

/-- The stack entries pushed for the children of a popped node: each child is
paired with the accumulated string extended by that child's fragment. -/
def pushes (cs : List (Char × Node α)) (acc : List Char) : List (Node α × List Char) :=
  cs.map (fun p => (p.2, acc ++ p.2.fragment))

mutual

/-- Number of nodes in the subtree rooted at a node (termination measure). -/
def nodeSize : Node α → Nat
  | .mk cs _ _ _ => 1 + childrenSize cs

/-- Total node count of the subtrees in a child list (entries counted too,
so that a child list weighs strictly more than any of its members). -/
def childrenSize : List (Char × Node α) → Nat
  | [] => 0
  | (_, n) :: rest => 1 + nodeSize n + childrenSize rest

end

/-- Termination measure for the enumeration loop: total size of the nodes
still on the stack. -/
def stackW : List (Node α × List Char) → Nat
  | [] => 0
  | (n, _) :: rest => nodeSize n + stackW rest

theorem stackW_append (s1 s2 : List (Node α × List Char)) :
    stackW (s1 ++ s2) = stackW s1 + stackW s2 := by
  induction s1 with
  | nil => simp [stackW]
  | cons p rest ih => cases p with | mk n acc => simp [stackW, ih]; omega

theorem stackW_pushes (cs : List (Char × Node α)) (acc : List Char) :
    stackW (pushes cs acc) ≤ childrenSize cs := by
  induction cs with
  | nil => simp [pushes, stackW]
  | cons p rest ih => cases p with | mk c n => simp [pushes, stackW, childrenSize] at *; omega

theorem childrenSize_insertSorted (p : Char × Node α) (l : List (Char × Node α)) :
    childrenSize (insertSorted p l) = 1 + nodeSize p.2 + childrenSize l := by
  induction l with
  | nil => rfl
  | cons q rest ih =>
    by_cases h : p.1 ≤ q.1 <;> simp [insertSorted, h, childrenSize] at * <;> omega

theorem childrenSize_sortChildren (cs : List (Char × Node α)) :
    childrenSize (sortChildren cs) = childrenSize cs := by
  induction cs with
  | nil => rfl
  | cons p rest ih => simp [sortChildren, childrenSize_insertSorted, childrenSize, ih]

theorem collectLoop_dec (n : Node α) (acc : List Char) (rest : List (Node α × List Char)) :
    stackW (pushes (sortChildren n.children) acc ++ rest) < stackW ((n, acc) :: rest) := by
  have hp := stackW_pushes (sortChildren n.children) acc
  rw [childrenSize_sortChildren] at hp
  cases n with
  | mk cs e v f =>
    simp only [stackW_append, stackW, nodeSize, Node.children_mk] at *
    omega

/-- The lazy DFS of `keys_with_prefix`: an explicit stack of
(node, accumulated string) pairs; popping a terminal node yields its
accumulated string, and the node's children are pushed so that they are
popped in ascending order of their edge character. -/
def collectLoop : List (Node α × List Char) → List (List Char)
  | [] => []
  | (n, acc) :: rest =>
    (if n.is_end then [acc] else []) ++
      collectLoop (pushes (sortChildren n.children) acc ++ rest)
termination_by s => stackW s
decreasing_by
  apply collectLoop_dec

mutual

/-- Recursive restatement of the enumeration: yield the accumulated string at
a terminal node, then enumerate the children in ascending edge order.  Proved
below to produce the same list as the stack loop `collectLoop`. -/
def collect : Node α → List Char → List (List Char)
  | .mk cs e _ _, acc => (if e then [acc] else []) ++ collectList (sortChildren cs) acc
termination_by n _ => nodeSize n
decreasing_by
  simp only [nodeSize, childrenSize_sortChildren]
  omega

/-- Enumerate a list of child entries in order. -/
def collectList : List (Char × Node α) → List Char → List (List Char)
  | [], _ => []
  | (_, n) :: rest, acc => collect n (acc ++ n.fragment) ++ collectList rest acc
termination_by l _ => childrenSize l
decreasing_by
  · simp only [childrenSize]; omega
  · simp only [childrenSize]; omega

end

/-- `c` does not occur as a key of the child list. -/
def keyAbsent (c : Char) : List (Char × Node α) → Bool
  | [] => true
  | (c', _) :: rest => if c' = c then false else keyAbsent c rest

/-- The radix-tree shape conditions on one child entry: the edge's fragment
is nonempty and starts with its dictionary key, and the child is either
terminal or has at least two children (no pass-through nodes). -/
def childOK (c : Char) (n : Node α) : Bool :=
  decide (n.fragment.head? = some c) && (n.is_end || decide (2 ≤ n.children.length))

mutual

/-- Structural invariants of the tree (spec §3): sibling edges have distinct
first characters, every edge's fragment begins with its key character, and
every non-root non-terminal node has at least two children.  The root itself
is exempt from the `childOK` conditions, exactly as in the spec. -/
def nodeWF : Node α → Bool
  | .mk cs _ _ _ => childrenWF cs

/-- Child-list part of `nodeWF`. -/
def childrenWF : List (Char × Node α) → Bool
  | [] => true
  | (c, n) :: rest => keyAbsent c rest && childOK c n && nodeWF n && childrenWF rest

end

/-- The `Trie` object: a root node plus the `_size` counter. -/
structure Trie (α : Type) where
  root : Node α
  size : Nat

/-- A freshly constructed `Trie()`. -/
def Trie.empty : Trie α := ⟨Node.mk [] false none [], 0⟩

/-- `Trie.insert`. -/
def Trie.insert (t : Trie α) (key : List Char) (v : Option α) : Trie α :=
  let r := insertN t.root key v
  ⟨r.1, t.size + (if r.2 then 1 else 0)⟩

/-- `Trie.search`: the stored value, or `none` (Python `None`) if absent. -/
def Trie.search (t : Trie α) (key : List Char) : Option α :=
  match findNode t.root key with
  | some n => if n.is_end then n.value else none
  | none => none

/-- `Trie.starts_with`. -/
def Trie.startsWith (t : Trie α) (p : List Char) : Bool :=
  (findNode t.root p).isSome

/-- `Trie.__contains__`: `search(key) is not None`. -/
def Trie.containsKey (t : Trie α) (key : List Char) : Bool :=
  (t.search key).isSome

/-- `Trie.delete`: the updated trie and the "key existed" result.  The
`some none` branch (the whole root pruned) cannot occur, since the prune and
merge steps both require a nonempty parent path. -/
def Trie.delete (t : Trie α) (key : List Char) : Trie α × Bool :=
  match deleteN t.root key true with
  | none => (t, false)
  | some none => (⟨Node.mk [] false none [], t.size - 1⟩, true)
  | some (some r) => (⟨r, t.size - 1⟩, true)

/-- `Trie.keys_with_prefix`: locate the landing node of `prefix`, then run
the explicit-stack DFS with the accumulator seeded by `prefix` itself. -/
def Trie.keysWithPrefix (t : Trie α) (p : List Char) : List (List Char) :=
  match findNode t.root p with
  | none => []
  | some n => collectLoop [(n, p)]

/-- `storedN` at the root: `key` is currently a stored key of the trie. -/
def Trie.stored (t : Trie α) (key : List Char) : Bool :=
  storedN t.root key

/-- The trie states reachable from `Trie()` by the mutating operations. -/
inductive Reachable {α : Type} : Trie α → Prop where
  | base : Reachable (Trie.empty : Trie α)
  | ins (t : Trie α) (k : List Char) (v : Option α) : Reachable t → Reachable (t.insert k v)
  | del (t : Trie α) (k : List Char) : Reachable t → Reachable (t.delete k).1

/-- Character list of a string literal. -/
def chars (s : String) : List Char := s.toList

/-- The trie holding only `"apple" ↦ 1`. -/
def appleTrie : Trie Nat := (Trie.empty : Trie Nat).insert (chars "apple") (some 1)

/-- The trie holding `"bat" ↦ 1`, `"batch" ↦ 2`, `"bath" ↦ 3` (scenario 3 of
the specification). -/
def batTrie : Trie Nat :=
  (((Trie.empty : Trie Nat).insert (chars "bat") (some 1)).insert
      (chars "batch") (some 2)).insert (chars "bath") (some 3)

/-- The trie holding only `"ab" ↦ 1`. -/
def abTrie : Trie Nat := (Trie.empty : Trie Nat).insert (chars "ab") (some 1)

/-- A state built with two inserts and a delete, used as a reachable witness. -/
def abcTrie : Trie Nat :=
  ((((Trie.empty : Trie Nat).insert (chars "ab") (some 1)).insert (chars "ac")
      (some 2)).delete (chars "ab")).1

/-- `abcTrie` is reachable by construction. -/
theorem abcTrie_reachable : Reachable abcTrie :=
  Reachable.del _ _ (Reachable.ins _ _ _ (Reachable.ins _ _ _ Reachable.base))

/-! ## Basic lemmas about the common-prefix length -/

theorem commonPrefixLen_le_left (k f : List Char) : commonPrefixLen k f ≤ k.length := by
  induction k generalizing f with
  | nil => simp [commonPrefixLen]
  | cons a as ih =>
    cases f with
    | nil => simp [commonPrefixLen]
    | cons b bs =>
      by_cases h : a = b <;> simp [commonPrefixLen, h]
      exact ih bs

theorem commonPrefixLen_le_right (k f : List Char) : commonPrefixLen k f ≤ f.length := by
  induction k generalizing f with
  | nil => simp [commonPrefixLen]
  | cons a as ih =>
    cases f with
    | nil => simp [commonPrefixLen]
    | cons b bs =>
      by_cases h : a = b <;> simp [commonPrefixLen, h]
      exact ih bs


theorem commonPrefixLen_take (k : List Char) (j : Nat) :
    commonPrefixLen k (k.take j) = min j k.length := by
  induction k generalizing j with
  | nil => simp [commonPrefixLen]
  | cons a as ih =>
    cases j with
    | zero => simp [commonPrefixLen]
    | succ j' => simp [List.take, commonPrefixLen, ih j']; omega

theorem commonPrefixLen_self (k : List Char) : commonPrefixLen k k = k.length := by
  have h := commonPrefixLen_take k k.length
  simpa using h

theorem take_commonPrefixLen_eq (k f : List Char) :
    k.take (commonPrefixLen k f) = f.take (commonPrefixLen k f) := by
  induction k generalizing f with
  | nil => simp [commonPrefixLen]
  | cons a as ih =>
    cases f with
    | nil => simp [commonPrefixLen]
    | cons b bs =>
      by_cases h : a = b <;> simp [commonPrefixLen, h]
      exact ih bs

theorem commonPrefixLen_append (f s : List Char) :
    commonPrefixLen (f ++ s) f = f.length := by
  induction f with
  | nil => cases s <;> rfl
  | cons a as ih => simp [commonPrefixLen, ih]

theorem commonPrefixLen_eq_right_iff (k f : List Char) :
    commonPrefixLen k f = f.length ↔ f <+: k := by
  constructor
  · intro h
    have ht := take_commonPrefixLen_eq k f
    rw [h, List.take_length] at ht
    exact ht ▸ List.take_prefix f.length k
  · rintro ⟨s, rfl⟩
    exact commonPrefixLen_append f s

theorem commonPrefixLen_get_ne (k f : List Char) (x y : Char)
    (hx : k[commonPrefixLen k f]? = some x)
    (hy : f[commonPrefixLen k f]? = some y) : x ≠ y := by
  induction k generalizing f with
  | nil => simp [commonPrefixLen] at hx
  | cons a as ih =>
    cases f with
    | nil => simp [commonPrefixLen] at hy
    | cons b bs =>
      by_cases h : a = b
      · simp [commonPrefixLen, h] at hx hy
        exact ih bs hx hy
      · simp [commonPrefixLen, h] at hx hy
        subst hx; subst hy; exact h

theorem commonPrefixLen_of_prefix_left (p f : List Char) (h : p <+: f) :
    commonPrefixLen p f = p.length := by
  obtain ⟨s, rfl⟩ := h
  induction p with
  | nil => simp [commonPrefixLen]
  | cons a as ih => simp [commonPrefixLen, ih]

/-! ## Size and membership helpers for the nested node type -/

theorem nodeSize_mem {c : Char} {m : Node α} {cs : List (Char × Node α)}
    (h : (c, m) ∈ cs) : nodeSize m < childrenSize cs := by
  induction cs with
  | nil => cases h
  | cons p rest ih =>
    cases p with
    | mk c' n' =>
      rcases List.mem_cons.mp h with h1 | h1
      · cases h1; simp [childrenSize]; omega
      · have := ih h1; simp [childrenSize]; omega

/-- Member-based induction on nodes: to prove a property of every node it
suffices to prove it for a node assuming it for all child subtrees. -/
theorem Node.memInd {P : Node α → Prop}
    (h : ∀ cs e v f, (∀ c n, (c, n) ∈ cs → P n) → P (Node.mk cs e v f))
    (n : Node α) : P n := by
  generalize hs : nodeSize n = s
  induction s using Nat.strong_induction_on generalizing n with
  | _ s ih =>
    cases n with
    | mk cs e v f =>
      refine h cs e v f (fun c m hm => ih (nodeSize m) ?_ m rfl)
      have := nodeSize_mem hm
      subst hs
      simp only [nodeSize]
      omega

/-! ## Step equations for the walk functions -/

@[simp] theorem findNode_nil (n : Node α) : findNode n [] = some n := by
  cases n; simp [findNode]

theorem findNode_cons (cs : List (Char × Node α)) (e : Bool) (v : Option α) (f : List Char)
    (c : Char) (rest : List Char) :
    findNode (Node.mk cs e v f) (c :: rest) = findNodeC cs c (c :: rest) := by
  simp [findNode]

@[simp] theorem findNodeC_nil (c : Char) (key : List Char) :
    findNodeC ([] : List (Char × Node α)) c key = none := by
  simp [findNodeC]

theorem findNodeC_cons_eq (child : Node α) (cstail : List (Char × Node α)) (c : Char)
    (key : List Char) :
    findNodeC ((c, child) :: cstail) c key
      = if commonPrefixLen key child.fragment < child.fragment.length then
          (if commonPrefixLen key child.fragment = key.length then some child else none)
        else findNode child (key.drop (commonPrefixLen key child.fragment)) := by
  simp only [findNodeC, if_pos rfl, if_true]

theorem findNodeC_cons_mid (child : Node α) (cstail : List (Char × Node α)) (c : Char)
    (key : List Char) (h1 : commonPrefixLen key child.fragment < child.fragment.length)
    (h2 : commonPrefixLen key child.fragment = key.length) :
    findNodeC ((c, child) :: cstail) c key = some child := by
  rw [findNodeC_cons_eq, if_pos h1, if_pos h2]

theorem findNodeC_cons_mid_ne (child : Node α) (cstail : List (Char × Node α)) (c : Char)
    (key : List Char) (h1 : commonPrefixLen key child.fragment < child.fragment.length)
    (h2 : commonPrefixLen key child.fragment ≠ key.length) :
    findNodeC ((c, child) :: cstail) c key = none := by
  rw [findNodeC_cons_eq, if_pos h1, if_neg h2]

theorem findNodeC_cons_descend (child : Node α) (cstail : List (Char × Node α)) (c : Char)
    (key : List Char) (h1 : ¬ commonPrefixLen key child.fragment < child.fragment.length) :
    findNodeC ((c, child) :: cstail) c key
      = findNode child (key.drop (commonPrefixLen key child.fragment)) := by
  rw [findNodeC_cons_eq, if_neg h1]

theorem findNodeC_cons_ne (c' : Char) (child : Node α) (cstail : List (Char × Node α)) (c : Char)
    (key : List Char) (h : c' ≠ c) :
    findNodeC ((c', child) :: cstail) c key = findNodeC cstail c key := by
  simp [findNodeC, h]

theorem insertN_nil (cs : List (Char × Node α)) (e : Bool) (v0 : Option α) (f : List Char)
    (v : Option α) : insertN (Node.mk cs e v0 f) [] v = (Node.mk cs true v f, !e) := by
  simp [insertN]

theorem insertN_cons (cs : List (Char × Node α)) (e : Bool) (v0 : Option α) (f : List Char)
    (c : Char) (rest : List Char) (v : Option α) :
    insertN (Node.mk cs e v0 f) (c :: rest) v
      = (Node.mk (insertC cs c (c :: rest) v).1 e v0 f, (insertC cs c (c :: rest) v).2) := by
  simp [insertN]

theorem insertC_nil (c : Char) (key : List Char) (v : Option α) :
    insertC ([] : List (Char × Node α)) c key v = ([(c, Node.mk [] true v key)], true) := by
  simp [insertC]

theorem insertC_cons_eq (child : Node α) (cstail : List (Char × Node α)) (c : Char)
    (key : List Char) (v : Option α) :
    insertC ((c, child) :: cstail) c key v
      = if commonPrefixLen key child.fragment = child.fragment.length then
          ((c, (insertN child (key.drop (commonPrefixLen key child.fragment)) v).1) :: cstail,
            (insertN child (key.drop (commonPrefixLen key child.fragment)) v).2)
        else if commonPrefixLen key child.fragment = key.length then
          ((c, Node.mk [((child.fragment.drop (commonPrefixLen key child.fragment)).headD c,
              Node.mk child.children child.is_end child.value
                (child.fragment.drop (commonPrefixLen key child.fragment)))]
              true v (child.fragment.take (commonPrefixLen key child.fragment))) :: cstail,
            true)
        else
          ((c, Node.mk
              (setChild ((key.drop (commonPrefixLen key child.fragment)).headD c)
                (Node.mk [] true v (key.drop (commonPrefixLen key child.fragment)))
                [((child.fragment.drop (commonPrefixLen key child.fragment)).headD c,
                  Node.mk child.children child.is_end child.value
                    (child.fragment.drop (commonPrefixLen key child.fragment)))])
              false none (child.fragment.take (commonPrefixLen key child.fragment))) :: cstail,
            true) := by
  simp only [insertC, if_pos rfl, if_true]

theorem insertC_cons_descend (child : Node α) (cstail : List (Char × Node α)) (c : Char)
    (key : List Char) (v : Option α)
    (h : commonPrefixLen key child.fragment = child.fragment.length) :
    insertC ((c, child) :: cstail) c key v
      = ((c, (insertN child (key.drop (commonPrefixLen key child.fragment)) v).1) :: cstail,
          (insertN child (key.drop (commonPrefixLen key child.fragment)) v).2) := by
  rw [insertC_cons_eq, if_pos h]

theorem insertC_cons_split_end (child : Node α) (cstail : List (Char × Node α)) (c : Char)
    (key : List Char) (v : Option α)
    (h1 : commonPrefixLen key child.fragment ≠ child.fragment.length)
    (h2 : commonPrefixLen key child.fragment = key.length) :
    insertC ((c, child) :: cstail) c key v
      = ((c, Node.mk [((child.fragment.drop (commonPrefixLen key child.fragment)).headD c,
            Node.mk child.children child.is_end child.value
              (child.fragment.drop (commonPrefixLen key child.fragment)))]
            true v (child.fragment.take (commonPrefixLen key child.fragment))) :: cstail,
          true) := by
  rw [insertC_cons_eq, if_neg h1, if_pos h2]

theorem insertC_cons_split_mid (child : Node α) (cstail : List (Char × Node α)) (c : Char)
    (key : List Char) (v : Option α)
    (h1 : commonPrefixLen key child.fragment ≠ child.fragment.length)
    (h2 : commonPrefixLen key child.fragment ≠ key.length) :
    insertC ((c, child) :: cstail) c key v
      = ((c, Node.mk
            (setChild ((key.drop (commonPrefixLen key child.fragment)).headD c)
              (Node.mk [] true v (key.drop (commonPrefixLen key child.fragment)))
              [((child.fragment.drop (commonPrefixLen key child.fragment)).headD c,
                Node.mk child.children child.is_end child.value
                  (child.fragment.drop (commonPrefixLen key child.fragment)))])
            false none (child.fragment.take (commonPrefixLen key child.fragment))) :: cstail,
          true) := by
  rw [insertC_cons_eq, if_neg h1, if_neg h2]

theorem insertC_cons_ne (c' : Char) (child : Node α) (cstail : List (Char × Node α)) (c : Char)
    (key : List Char) (v : Option α) (h : c' ≠ c) :
    insertC ((c', child) :: cstail) c key v
      = ((c', child) :: (insertC cstail c key v).1, (insertC cstail c key v).2) := by
  simp [insertC, h]

theorem storedN_nil (n : Node α) : storedN n [] = n.is_end := by
  cases n; simp [storedN]

theorem storedN_cons (cs : List (Char × Node α)) (e : Bool) (v : Option α) (f : List Char)
    (c : Char) (rest : List Char) :
    storedN (Node.mk cs e v f) (c :: rest) = storedC cs c (c :: rest) := by
  simp [storedN]

@[simp] theorem storedC_nil (c : Char) (key : List Char) :
    storedC ([] : List (Char × Node α)) c key = false := by
  simp [storedC]

theorem storedC_cons_eq (child : Node α) (cstail : List (Char × Node α)) (c : Char)
    (key : List Char) :
    storedC ((c, child) :: cstail) c key
      = (child.fragment.isPrefixOf key && storedN child (key.drop child.fragment.length)) := by
  simp only [storedC, if_pos rfl, if_true]

theorem storedC_cons_ne (c' : Char) (child : Node α) (cstail : List (Char × Node α)) (c : Char)
    (key : List Char) (h : c' ≠ c) :
    storedC ((c', child) :: cstail) c key = storedC cstail c key := by
  simp [storedC, h]

theorem deleteN_nil_eq (cs : List (Char × Node α)) (e : Bool) (v : Option α) (f : List Char)
    (isRoot : Bool) :
    deleteN (Node.mk cs e v f) [] isRoot
      = if e then some (afterDelete cs f isRoot) else none := by
  simp [deleteN]

theorem deleteN_cons_none (cs : List (Char × Node α)) (e : Bool) (v : Option α) (f : List Char)
    (c : Char) (rest : List Char) (isRoot : Bool)
    (h : deleteC cs c (c :: rest) = none) :
    deleteN (Node.mk cs e v f) (c :: rest) isRoot = none := by
  simp [deleteN, h]

theorem deleteN_cons_pruned (cs : List (Char × Node α)) (e : Bool) (v : Option α) (f : List Char)
    (c : Char) (rest : List Char) (isRoot : Bool) (cs' : List (Char × Node α))
    (h : deleteC cs c (c :: rest) = some (true, cs')) :
    deleteN (Node.mk cs e v f) (c :: rest) isRoot
      = if cs'.isEmpty && !e && !isRoot then some none
        else if cs'.length == 1 && !e && !isRoot then some (some (mergeNode cs' f))
        else some (some (Node.mk cs' e v f)) := by
  simp only [deleteN, h]

theorem deleteN_cons_replaced (cs : List (Char × Node α)) (e : Bool) (v : Option α)
    (f : List Char) (c : Char) (rest : List Char) (isRoot : Bool) (cs' : List (Char × Node α))
    (h : deleteC cs c (c :: rest) = some (false, cs')) :
    deleteN (Node.mk cs e v f) (c :: rest) isRoot = some (some (Node.mk cs' e v f)) := by
  simp only [deleteN, h]

@[simp] theorem deleteC_nil (c : Char) (key : List Char) :
    deleteC ([] : List (Char × Node α)) c key = none := by
  simp [deleteC]

theorem deleteC_cons_notpfx (child : Node α) (cstail : List (Char × Node α)) (c : Char)
    (key : List Char) (h : child.fragment.isPrefixOf key = false) :
    deleteC ((c, child) :: cstail) c key = none := by
  simp [deleteC, h]

theorem deleteC_cons_fail (child : Node α) (cstail : List (Char × Node α)) (c : Char)
    (key : List Char) (hp : child.fragment.isPrefixOf key = true)
    (h : deleteN child (key.drop child.fragment.length) false = none) :
    deleteC ((c, child) :: cstail) c key = none := by
  simp [deleteC, hp, h]

theorem deleteC_cons_prune (child : Node α) (cstail : List (Char × Node α)) (c : Char)
    (key : List Char) (hp : child.fragment.isPrefixOf key = true)
    (h : deleteN child (key.drop child.fragment.length) false = some none) :
    deleteC ((c, child) :: cstail) c key = some (true, cstail) := by
  simp [deleteC, hp, h]

theorem deleteC_cons_repl (child : Node α) (cstail : List (Char × Node α)) (c : Char)
    (key : List Char) (child' : Node α) (hp : child.fragment.isPrefixOf key = true)
    (h : deleteN child (key.drop child.fragment.length) false = some (some child')) :
    deleteC ((c, child) :: cstail) c key = some (false, (c, child') :: cstail) := by
  simp [deleteC, hp, h]

theorem deleteC_cons_ne (c' : Char) (child : Node α) (cstail : List (Char × Node α)) (c : Char)
    (key : List Char) (h : c' ≠ c) :
    deleteC ((c', child) :: cstail) c key
      = (deleteC cstail c key).map (fun r => (r.1, (c', child) :: r.2)) := by
  cases hr : deleteC cstail c key with
  | none => simp [deleteC, h, hr]
  | some r => cases r; simp [deleteC, h, hr]

@[simp] theorem collectLoop_nil : collectLoop ([] : List (Node α × List Char)) = [] := by
  simp [collectLoop]

theorem collectLoop_cons (n : Node α) (acc : List Char) (rest : List (Node α × List Char)) :
    collectLoop ((n, acc) :: rest)
      = (if n.is_end then [acc] else [])
          ++ collectLoop (pushes (sortChildren n.children) acc ++ rest) := by
  simp [collectLoop]

theorem collect_eq (cs : List (Char × Node α)) (e : Bool) (v : Option α) (f : List Char)
    (acc : List Char) :
    collect (Node.mk cs e v f) acc
      = (if e then [acc] else []) ++ collectList (sortChildren cs) acc := by
  simp [collect]

@[simp] theorem collectList_nil (acc : List Char) :
    collectList ([] : List (Char × Node α)) acc = [] := by
  simp [collectList]

theorem collectList_cons (c : Char) (n : Node α) (rest : List (Char × Node α))
    (acc : List Char) :
    collectList ((c, n) :: rest) acc
      = collect n (acc ++ n.fragment) ++ collectList rest acc := by
  simp [collectList]

theorem nodeWF_eq (cs : List (Char × Node α)) (e : Bool) (v : Option α) (f : List Char) :
    nodeWF (Node.mk cs e v f) = childrenWF cs := by
  simp [nodeWF]

@[simp] theorem childrenWF_nil : childrenWF ([] : List (Char × Node α)) = true := by
  simp [childrenWF]

theorem childrenWF_cons (c : Char) (n : Node α) (rest : List (Char × Node α)) :
    childrenWF ((c, n) :: rest)
      = (keyAbsent c rest && childOK c n && nodeWF n && childrenWF rest) := by
  simp [childrenWF]

theorem Trie.insert_root (t : Trie α) (k : List Char) (v : Option α) :
    (t.insert k v).root = (insertN t.root k v).1 := rfl

theorem Trie.insert_size (t : Trie α) (k : List Char) (v : Option α) :
    (t.insert k v).size = t.size + (if (insertN t.root k v).2 then 1 else 0) := rfl

/-! ## The delete walk fails exactly on missing keys (C5) -/

theorem deleteN_none_iff : ∀ (n : Node α) (k : List Char) (r : Bool),
    deleteN n k r = none ↔ storedN n k = false := by
  apply deleteN.induct
    (fun n k r => deleteN n k r = none ↔ storedN n k = false)
    (fun cs c key => deleteC cs c key = none ↔ storedC cs c key = false)
  all_goals intros
  all_goals simp_all [deleteN, deleteC, storedN, storedC]
  split
  · simp
  · split <;> simp

/-! ## Insert establishes the key (C6) -/

theorem insertN_fragment (n : Node α) (k : List Char) (v : Option α) :
    ((insertN n k v).1).fragment = n.fragment := by
  cases n with
  | mk cs e v0 f => cases k <;> simp [insertN]

theorem drop_cons_headD (l : List Char) (d : Char) (jn : Nat) (h : jn < l.length) :
    l.drop jn = (l.drop jn).headD d :: l.drop (jn + 1) := by
  induction l generalizing jn with
  | nil => simp at h
  | cons a as ih =>
    cases jn with
    | zero => simp
    | succ j2 => simpa using ih j2 (by simpa using h)

theorem commonPrefixLen_headD_drop_ne (k f : List Char) (d : Char)
    (h1 : commonPrefixLen k f < k.length) (h2 : commonPrefixLen k f < f.length) :
    (f.drop (commonPrefixLen k f)).headD d ≠ (k.drop (commonPrefixLen k f)).headD d := by
  induction k generalizing f with
  | nil => simp [commonPrefixLen] at h1
  | cons a as ih =>
    cases f with
    | nil => simp [commonPrefixLen] at h2
    | cons b bs =>
      by_cases h : a = b
      · simp only [commonPrefixLen, h, if_pos rfl, if_true, List.length_cons,
          List.drop_succ_cons] at *
        exact ih bs (by omega) (by omega)
      · simp only [commonPrefixLen, if_neg h, List.drop_zero, List.headD_cons]
        exact fun hb => h hb.symm

theorem findNode_insertN : ∀ (n : Node α) (k : List Char) (v : Option α),
    ∃ m, findNode (insertN n k v).1 k = some m ∧ m.is_end = true ∧ m.value = v := by
  apply insertN.induct
    (fun n k v => ∃ m, findNode (insertN n k v).1 k = some m ∧ m.is_end = true ∧ m.value = v)
    (fun cs c key v =>
      ∃ m, findNodeC (insertC cs c key v).1 c key = some m ∧ m.is_end = true ∧ m.value = v)
  case case1 =>
    intro cs e v0 f newv
    exact ⟨Node.mk cs true newv f, by rw [insertN_nil, findNode_nil], rfl, rfl⟩
  case case2 =>
    intro cs e v f c rest newv ih
    obtain ⟨m, hm, he, hv⟩ := ih
    refine ⟨m, ?_, he, hv⟩
    rw [insertN_cons, findNode_cons]
    exact hm
  case case3 =>
    intro c key newv
    refine ⟨Node.mk [] true newv key, ?_, rfl, rfl⟩
    rw [insertC_nil, findNodeC_cons_descend]
    · simp [commonPrefixLen_self]
    · simp [commonPrefixLen_self]
  case case4 =>
    intro child cstail c key newv
    dsimp only
    intro hj ih
    obtain ⟨m, hm, he, hv⟩ := ih
    refine ⟨m, ?_, he, hv⟩
    rw [insertC_cons_descend child cstail c key newv hj]
    rw [findNodeC_cons_descend]
    · rw [insertN_fragment]
      exact hm
    · rw [insertN_fragment]
      omega
  case case5 =>
    intro child cstail c key newv
    dsimp only
    intro hj hk
    have hle := commonPrefixLen_le_right key child.fragment
    have hlt : commonPrefixLen key child.fragment < child.fragment.length :=
      lt_of_le_of_ne hle hj
    have htake : child.fragment.take (commonPrefixLen key child.fragment)
        = key.take (commonPrefixLen key child.fragment) :=
      (take_commonPrefixLen_eq key child.fragment).symm
    refine ⟨Node.mk [((child.fragment.drop (commonPrefixLen key child.fragment)).headD c,
        Node.mk child.children child.is_end child.value
          (child.fragment.drop (commonPrefixLen key child.fragment)))]
        true newv (child.fragment.take (commonPrefixLen key child.fragment)), ?_, rfl, rfl⟩
    rw [insertC_cons_split_end child cstail c key newv hj hk]
    rw [findNodeC_cons_descend]
    · rw [Node.fragment_mk, htake, commonPrefixLen_take]
      have hmin : min (commonPrefixLen key child.fragment) key.length
          = commonPrefixLen key child.fragment := by omega
      rw [hmin, hk, List.drop_length, findNode_nil]
    · rw [Node.fragment_mk, htake, commonPrefixLen_take]
      simp only [List.length_take]
      omega
  case case6 =>
    intro child cstail c key newv
    dsimp only
    intro hj hk
    have hler := commonPrefixLen_le_right key child.fragment
    have hlel := commonPrefixLen_le_left key child.fragment
    have hltr : commonPrefixLen key child.fragment < child.fragment.length :=
      lt_of_le_of_ne hler hj
    have hltl : commonPrefixLen key child.fragment < key.length :=
      lt_of_le_of_ne hlel hk
    have htake : child.fragment.take (commonPrefixLen key child.fragment)
        = key.take (commonPrefixLen key child.fragment) :=
      (take_commonPrefixLen_eq key child.fragment).symm
    have hne : (child.fragment.drop (commonPrefixLen key child.fragment)).headD c
        ≠ (key.drop (commonPrefixLen key child.fragment)).headD c :=
      commonPrefixLen_headD_drop_ne key child.fragment c hltl hltr
    have hd := drop_cons_headD key c (commonPrefixLen key child.fragment) hltl
    refine ⟨Node.mk [] true newv (key.drop (commonPrefixLen key child.fragment)), ?_, rfl, rfl⟩
    rw [insertC_cons_split_mid child cstail c key newv hj hk]
    rw [findNodeC_cons_descend]
    · rw [Node.fragment_mk, htake, commonPrefixLen_take]
      have hmin : min (commonPrefixLen key child.fragment) key.length
          = commonPrefixLen key child.fragment := by omega
      rw [hmin]
      rw [hd]
      simp only [List.headD_cons]
      rw [findNode_cons]
      rw [setChild]
      rw [if_neg hne]
      rw [setChild]
      rw [findNodeC_cons_ne _ _ _ _ _ hne]
      rw [findNodeC_cons_descend]
      · simp [commonPrefixLen_self]
        have hfin : commonPrefixLen key child.fragment + 1
            + (key.length - (commonPrefixLen key child.fragment + 1)) = key.length := by omega
        rw [hfin, List.drop_length, findNode_nil]
      · simp [commonPrefixLen_self]
    · rw [Node.fragment_mk, htake, commonPrefixLen_take]
      simp only [List.length_take]
      omega
  case case7 =>
    intro c2 child cstail c key newv hne ih
    obtain ⟨m, hm, he, hv⟩ := ih
    refine ⟨m, ?_, he, hv⟩
    rw [insertC_cons_ne c2 child cstail c key newv hne]
    rw [findNodeC_cons_ne _ _ _ _ _ hne]
    exact hm

/-- C1: the specification says `search(k)` returns a stored value only when
the walk lands exactly on a terminal node whose consumed whole-fragment path
equals `k`, and returns absent whenever `k` ends strictly inside an edge
fragment.  The code violates this: with only `"apple"` stored, the key
`"app"` is fully consumed strictly inside the fragment `"apple"`, it is not a
stored key, yet `search` returns the stored value `1` instead of absent
(`_find_node` returns the mid-fragment child, and `search` only re-checks
its terminal flag). -/
theorem C1_search_mid_fragment_returns_value :
    appleTrie.search (chars "app") = some 1 ∧ appleTrie.stored (chars "app") = false := by
  decide

/-- C4: the specification says `delete(k)` followed by `search(k)` returns
absent regardless of the boolean `delete` returned.  The code violates this:
with only `"apple"` stored, `delete("app")` returns false and leaves the tree
unchanged, after which `search("app")` still returns `1` (the mid-fragment
search defect of C1). -/
theorem C4_delete_then_search_not_absent :
    (appleTrie.delete (chars "app")).2 = false ∧
    ((appleTrie.delete (chars "app")).1).search (chars "app") = some 1 := by
  decide

/-- C3: the specification says `size()` always equals the number of keys `k`
with `search(k)` not absent.  The code violates this: after inserting only
`"ab"`, `size()` is 1, but `search` returns a value for both `"a"` and
`"ab"` (again the mid-fragment search defect), so at least two keys have a
non-absent `search` result. -/
theorem C3_size_differs_from_searchable_keys :
    abTrie.size = 1 ∧ abTrie.search (chars "a") = some 1 ∧
    abTrie.search (chars "ab") = some 1 ∧ abTrie.stored (chars "a") = false := by
  decide

/-- C2: the specification says `enumerate_with_prefix(p)` yields exactly the
stored keys having `p` as a prefix, each equal to a full stored key.  The
code violates this: with `"bat"`, `"batch"`, `"bath"` stored,
`keys_with_prefix("ba")` lands mid-fragment on the `"bat"` edge but seeds the
accumulator with `"ba"` only, so it yields `["ba", "bach", "bah"]` — none of
which is a stored key ("bat", "batch" and "bath" are the stored keys). -/
theorem C2_enumeration_yields_truncated_keys :
    batTrie.keysWithPrefix (chars "ba") = [chars "ba", chars "bach", chars "bah"] ∧
    batTrie.stored (chars "bat") = true ∧ batTrie.stored (chars "batch") = true ∧
    batTrie.stored (chars "bath") = true ∧ batTrie.stored (chars "ba") = false ∧
    batTrie.stored (chars "bach") = false ∧ batTrie.stored (chars "bah") = false := by
  refine ⟨?_, by decide, by decide, by decide, by decide, by decide, by decide⟩
  simp [batTrie, Trie.keysWithPrefix, Trie.insert, Trie.empty, chars, insertN, insertC,
    findNode, findNodeC, commonPrefixLen, collectLoop, pushes, sortChildren, insertSorted,
    setChild]

/-- C5: `delete(k)` on a key that is not stored (the walk cannot fully
consume `k` fragment by fragment, or the landing node is not terminal —
exactly `Trie.stored t k = false`) returns false and performs no mutation:
the resulting trie is the very same state, size included. -/
theorem C5_delete_absent_is_noop (t : Trie α) (k : List Char) (h : t.stored k = false) :
    t.delete k = (t, false) := by
  have hn := (deleteN_none_iff t.root k true).mpr h
  simp [Trie.delete, hn]

theorem C5_delete_absent_is_noop_witness :
    appleTrie.stored (chars "apps") = false ∧
    appleTrie.delete (chars "apps") = (appleTrie, false) :=
  ⟨by decide, C5_delete_absent_is_noop appleTrie (chars "apps") (by decide)⟩

/-- C6: round trip — for every trie state, key and value, immediately after
`insert(k, v)` a `search(k)` returns exactly `v` (with `none` both the Python
`None` value and the absent sentinel, as in the code). -/
theorem C6_insert_then_search_returns_value (t : Trie α) (k : List Char) (v : Option α) :
    (t.insert k v).search k = v := by
  obtain ⟨m, hm, he, hv⟩ := findNode_insertN t.root k v
  have hr : (t.insert k v).root = (insertN t.root k v).1 := rfl
  simp [Trie.search, hr, hm, he, hv]

theorem isPrefixOf_true_iff (l1 l2 : List Char) : l1.isPrefixOf l2 = true ↔ l1 <+: l2 :=
  List.isPrefixOf_iff_prefix

theorem insertN_grew : ∀ (n : Node α) (k : List Char) (v : Option α),
    (insertN n k v).2 = !storedN n k := by
  apply insertN.induct
    (fun n k v => (insertN n k v).2 = !storedN n k)
    (fun cs c key v => (insertC cs c key v).2 = !storedC cs c key)
  case case1 =>
    intro cs e v0 f newv
    rw [insertN_nil, storedN_nil]
    simp
  case case2 =>
    intro cs e v f c rest newv ih
    rw [insertN_cons, storedN_cons]
    exact ih
  case case3 =>
    intro c key newv
    rw [insertC_nil, storedC_nil]
    rfl
  case case4 =>
    intro child cstail c key newv
    dsimp only
    intro hj ih
    rw [insertC_cons_descend child cstail c key newv hj, storedC_cons_eq]
    have hp : child.fragment.isPrefixOf key = true :=
      (isPrefixOf_true_iff _ _).mpr ((commonPrefixLen_eq_right_iff key child.fragment).mp hj)
    rw [hp, ← hj]
    simpa using ih
  case case5 =>
    intro child cstail c key newv
    dsimp only
    intro hj hk
    rw [insertC_cons_split_end child cstail c key newv hj hk, storedC_cons_eq]
    have hp : child.fragment.isPrefixOf key = false := by
      by_contra hcon
      have := (isPrefixOf_true_iff child.fragment key).mp (by simpa using hcon)
      exact hj ((commonPrefixLen_eq_right_iff key child.fragment).mpr this)
    rw [hp]
    rfl
  case case6 =>
    intro child cstail c key newv
    dsimp only
    intro hj hk
    rw [insertC_cons_split_mid child cstail c key newv hj hk, storedC_cons_eq]
    have hp : child.fragment.isPrefixOf key = false := by
      by_contra hcon
      have := (isPrefixOf_true_iff child.fragment key).mp (by simpa using hcon)
      exact hj ((commonPrefixLen_eq_right_iff key child.fragment).mpr this)
    rw [hp]
    rfl
  case case7 =>
    intro c2 child cstail c key newv hne ih
    rw [insertC_cons_ne c2 child cstail c key newv hne, storedC_cons_ne c2 child cstail c key hne]
    exact ih

theorem storedN_insertN : ∀ (n : Node α) (k : List Char) (v : Option α),
    storedN (insertN n k v).1 k = true := by
  apply insertN.induct
    (fun n k v => storedN (insertN n k v).1 k = true)
    (fun cs c key v => storedC (insertC cs c key v).1 c key = true)
  case case1 =>
    intro cs e v0 f newv
    rw [insertN_nil, storedN_nil]
    simp
  case case2 =>
    intro cs e v f c rest newv ih
    rw [insertN_cons, storedN_cons]
    exact ih
  case case3 =>
    intro c key newv
    rw [insertC_nil, storedC_cons_eq]
    simp [List.isPrefixOf_iff_prefix, storedN_nil]
  case case4 =>
    intro child cstail c key newv
    dsimp only
    intro hj ih
    rw [insertC_cons_descend child cstail c key newv hj, storedC_cons_eq]
    have hp : ((insertN child (key.drop (commonPrefixLen key child.fragment)) newv).1).fragment.isPrefixOf key = true := by
      rw [insertN_fragment]
      exact (isPrefixOf_true_iff _ _).mpr ((commonPrefixLen_eq_right_iff key child.fragment).mp hj)
    rw [hp, insertN_fragment, ← hj]
    simpa using ih
  case case5 =>
    intro child cstail c key newv
    dsimp only
    intro hj hk
    have hle := commonPrefixLen_le_right key child.fragment
    have htake : child.fragment.take (commonPrefixLen key child.fragment)
        = key.take (commonPrefixLen key child.fragment) :=
      (take_commonPrefixLen_eq key child.fragment).symm
    rw [insertC_cons_split_end child cstail c key newv hj hk, storedC_cons_eq]
    rw [Node.fragment_mk, htake, hk, List.take_length]
    simp [List.isPrefixOf_iff_prefix, storedN_nil]
  case case6 =>
    intro child cstail c key newv
    dsimp only
    intro hj hk
    have hler := commonPrefixLen_le_right key child.fragment
    have hlel := commonPrefixLen_le_left key child.fragment
    have hltl : commonPrefixLen key child.fragment < key.length :=
      lt_of_le_of_ne hlel hk
    have hltr : commonPrefixLen key child.fragment < child.fragment.length :=
      lt_of_le_of_ne hler hj
    have htake : child.fragment.take (commonPrefixLen key child.fragment)
        = key.take (commonPrefixLen key child.fragment) :=
      (take_commonPrefixLen_eq key child.fragment).symm
    have hne : (child.fragment.drop (commonPrefixLen key child.fragment)).headD c
        ≠ (key.drop (commonPrefixLen key child.fragment)).headD c :=
      commonPrefixLen_headD_drop_ne key child.fragment c hltl hltr
    have hd := drop_cons_headD key c (commonPrefixLen key child.fragment) hltl
    rw [insertC_cons_split_mid child cstail c key newv hj hk, storedC_cons_eq]
    simp only [Node.fragment_mk, htake]
    have hp : (key.take (commonPrefixLen key child.fragment)).isPrefixOf key = true :=
      (isPrefixOf_true_iff _ _).mpr (List.take_prefix _ _)
    rw [hp]
    have hlen : (key.take (commonPrefixLen key child.fragment)).length
        = commonPrefixLen key child.fragment := by
      simp [List.length_take]; omega
    rw [hlen]
    rw [hd]
    simp only [List.headD_cons]
    rw [storedN_cons]
    rw [setChild, if_neg hne, setChild]
    rw [storedC_cons_ne _ _ _ _ _ hne]
    rw [storedC_cons_eq]
    simp [List.isPrefixOf_iff_prefix, storedN_nil]
    have hfin : commonPrefixLen key child.fragment + 1
        + (key.length - (commonPrefixLen key child.fragment + 1)) = key.length := by omega
    rw [hfin, List.drop_length, storedN_nil]
    rfl
  case case7 =>
    intro c2 child cstail c key newv hne ih
    rw [insertC_cons_ne c2 child cstail c key newv hne, storedC_cons_ne c2 _ _ _ _ hne]
    exact ih

/-! ## Well-formedness is preserved by insert -/

theorem keyAbsent_cons (c : Char) (c' : Char) (n : Node α) (rest : List (Char × Node α)) :
    keyAbsent c ((c', n) :: rest) = if c' = c then false else keyAbsent c rest := by
  simp [keyAbsent]

theorem childrenWF_cons_iff (c : Char) (n : Node α) (rest : List (Char × Node α)) :
    childrenWF ((c, n) :: rest) = true
      ↔ keyAbsent c rest = true ∧ childOK c n = true ∧ nodeWF n = true
          ∧ childrenWF rest = true := by
  rw [childrenWF_cons]
  simp [Bool.and_eq_true, and_assoc]

theorem childOK_iff (c : Char) (n : Node α) :
    childOK c n = true
      ↔ n.fragment.head? = some c ∧ (n.is_end = true ∨ 2 ≤ n.children.length) := by
  simp [childOK, Bool.and_eq_true, Bool.or_eq_true, decide_eq_true_iff]

theorem childrenWF_mem (cs : List (Char × Node α)) (c : Char) (m : Node α)
    (hwf : childrenWF cs = true) (hm : (c, m) ∈ cs) :
    childOK c m = true ∧ nodeWF m = true := by
  induction cs with
  | nil => cases hm
  | cons p rest ih =>
    cases p with
    | mk c' n' =>
      rw [childrenWF_cons_iff] at hwf
      rcases List.mem_cons.mp hm with h1 | h1
      · cases h1; exact ⟨hwf.2.1, hwf.2.2.1⟩
      · exact ih hwf.2.2.2 h1

theorem nodeWF_refrag (n : Node α) (f' : List Char) :
    nodeWF (Node.mk n.children n.is_end n.value f') = nodeWF n := by
  cases n; simp [nodeWF]

theorem head?_take (l : List Char) (j : Nat) (h : 1 ≤ j) : (l.take j).head? = l.head? := by
  cases l with
  | nil => simp
  | cons a as =>
    cases j with
    | zero => omega
    | succ j' => simp

theorem headD_eq_head? (l : List Char) (d : Char) (h : l ≠ []) : l.head? = some (l.headD d) := by
  cases l with
  | nil => exact absurd rfl h
  | cons a as => simp

theorem drop_ne_nil (l : List Char) (j : Nat) (h : j < l.length) : l.drop j ≠ [] := by
  intro hc
  have := List.length_drop j l
  rw [hc] at this
  simp at this
  omega

theorem commonPrefixLen_pos (k f : List Char) (c : Char)
    (hk : k.head? = some c) (hf : f.head? = some c) : 1 ≤ commonPrefixLen k f := by
  cases k with
  | nil => simp at hk
  | cons a as =>
    cases f with
    | nil => simp at hf
    | cons b bs =>
      simp at hk hf
      subst hk; subst hf
      simp [commonPrefixLen]

theorem insertN_is_end (n : Node α) (k : List Char) (v : Option α) (h : n.is_end = true) :
    ((insertN n k v).1).is_end = true := by
  cases n with
  | mk cs e v0 f =>
    cases k with
    | nil => rw [insertN_nil]; rfl
    | cons c rest => rw [insertN_cons]; simpa using h

theorem insertC_length (cs : List (Char × Node α)) (c : Char) (key : List Char) (v : Option α) :
    cs.length ≤ ((insertC cs c key v).1).length := by
  induction cs with
  | nil => rw [insertC_nil]; simp
  | cons p cstail ih =>
    cases p with
    | mk c' child =>
      by_cases hc : c' = c
      · subst hc
        by_cases h1 : commonPrefixLen key child.fragment = child.fragment.length
        · rw [insertC_cons_descend _ _ _ _ _ h1]; simp
        · by_cases h2 : commonPrefixLen key child.fragment = key.length
          · rw [insertC_cons_split_end _ _ _ _ _ h1 h2]; simp
          · rw [insertC_cons_split_mid _ _ _ _ _ h1 h2]; simp
      · rw [insertC_cons_ne _ _ _ _ _ _ hc]
        simpa using ih

theorem childOK_insertN (c0 : Char) (n : Node α) (k : List Char) (v : Option α)
    (h : childOK c0 n = true) : childOK c0 (insertN n k v).1 = true := by
  rw [childOK_iff] at *
  refine ⟨by rw [insertN_fragment]; exact h.1, ?_⟩
  rcases h.2 with he | hl
  · exact Or.inl (insertN_is_end n k v he)
  · refine Or.inr ?_
    cases n with
    | mk cs e v0 f =>
      cases k with
      | nil => rw [insertN_nil]; simpa using hl
      | cons c rest =>
        rw [insertN_cons]
        simp only [Node.children_mk] at *
        exact le_trans hl (insertC_length cs c (c :: rest) v)

theorem keyAbsent_insertC : ∀ (cs : List (Char × Node α)) (c : Char) (key : List Char)
    (v : Option α) (c0 : Char),
    keyAbsent c0 ((insertC cs c key v).1) = true
      ↔ (keyAbsent c0 cs = true ∧ c0 ≠ c) := by
  intro cs c key v
  induction cs with
  | nil =>
    intro c0
    rw [insertC_nil, keyAbsent_cons]
    by_cases h : c = c0
    · subst h
      simp [keyAbsent]
    · rw [if_neg h]
      constructor
      · exact fun _ => ⟨rfl, fun he => h he.symm⟩
      · exact fun _ => rfl
  | cons p cstail ih =>
    intro c0
    cases p with
    | mk c' child =>
      by_cases hc : c' = c
      · subst hc
        have hshape : ∃ x, (insertC ((c', child) :: cstail) c' key v).1 = (c', x) :: cstail := by
          by_cases h1 : commonPrefixLen key child.fragment = child.fragment.length
          · exact ⟨_, by rw [insertC_cons_descend _ _ _ _ _ h1]⟩
          · by_cases h2 : commonPrefixLen key child.fragment = key.length
            · exact ⟨_, by rw [insertC_cons_split_end _ _ _ _ _ h1 h2]⟩
            · exact ⟨_, by rw [insertC_cons_split_mid _ _ _ _ _ h1 h2]⟩
        obtain ⟨x, hx⟩ := hshape
        rw [hx, keyAbsent_cons, keyAbsent_cons]
        by_cases hcc : c' = c0
        · simp [hcc]
        · simp only [if_neg hcc]
          constructor
          · exact fun h => ⟨h, fun he => hcc he.symm⟩
          · exact fun h => h.1
      · rw [insertC_cons_ne _ _ _ _ _ _ hc, keyAbsent_cons, keyAbsent_cons]
        by_cases hcc : c' = c0
        · simp [hcc]
        · simp only [if_neg hcc]
          exact ih c0

theorem nodeWF_insertN : ∀ (n : Node α) (k : List Char) (v : Option α),
    nodeWF n = true → nodeWF (insertN n k v).1 = true := by
  apply insertN.induct
    (fun n k v => nodeWF n = true → nodeWF (insertN n k v).1 = true)
    (fun cs c key v => key.head? = some c → childrenWF cs = true
      → childrenWF (insertC cs c key v).1 = true)
  case case1 =>
    intro cs e v0 f newv h
    rw [insertN_nil] at *
    rw [nodeWF_eq] at *
    simpa [nodeWF] using h
  case case2 =>
    intro cs e v f c rest newv ih h
    rw [insertN_cons]
    rw [nodeWF_eq] at *
    exact ih rfl (by simpa [nodeWF] using h)
  case case3 =>
    intro c key newv hh _
    rw [insertC_nil]
    rw [childrenWF_cons_iff]
    refine ⟨rfl, ?_, rfl, rfl⟩
    rw [childOK_iff]
    exact ⟨by simpa using hh, Or.inl rfl⟩
  case case4 =>
    intro child cstail c key newv
    dsimp only
    intro hj ih hh hwf
    rw [insertC_cons_descend _ _ _ _ _ hj]
    rw [childrenWF_cons_iff] at *
    obtain ⟨ha, hok, hnw, htl⟩ := hwf
    exact ⟨ha, childOK_insertN c child _ newv hok, ih hnw, htl⟩
  case case5 =>
    intro child cstail c key newv
    dsimp only
    intro hj hk hh hwf
    rw [childrenWF_cons_iff] at hwf
    obtain ⟨ha, hok, hnw, htl⟩ := hwf
    rw [childOK_iff] at hok
    have hle := commonPrefixLen_le_right key child.fragment
    have hltr : commonPrefixLen key child.fragment < child.fragment.length :=
      lt_of_le_of_ne hle hj
    have hpos : 1 ≤ commonPrefixLen key child.fragment :=
      commonPrefixLen_pos key child.fragment c hh hok.1
    have hdrop : child.fragment.drop (commonPrefixLen key child.fragment) ≠ [] :=
      drop_ne_nil _ _ hltr
    rw [insertC_cons_split_end _ _ _ _ _ hj hk]
    rw [childrenWF_cons_iff]
    refine ⟨ha, ?_, ?_, htl⟩
    · rw [childOK_iff]
      constructor
      · rw [Node.fragment_mk, head?_take _ _ hpos]
        exact hok.1
      · exact Or.inl rfl
    · rw [nodeWF_eq, childrenWF_cons_iff]
      refine ⟨rfl, ?_, ?_, rfl⟩
      · rw [childOK_iff]
        refine ⟨?_, ?_⟩
        · rw [Node.fragment_mk]
          exact headD_eq_head? _ c hdrop
        · simpa using hok.2
      · rw [nodeWF_refrag]
        exact hnw
  case case6 =>
    intro child cstail c key newv
    dsimp only
    intro hj hk hh hwf
    rw [childrenWF_cons_iff] at hwf
    obtain ⟨ha, hok, hnw, htl⟩ := hwf
    rw [childOK_iff] at hok
    have hler := commonPrefixLen_le_right key child.fragment
    have hlel := commonPrefixLen_le_left key child.fragment
    have hltr : commonPrefixLen key child.fragment < child.fragment.length :=
      lt_of_le_of_ne hler hj
    have hltl : commonPrefixLen key child.fragment < key.length :=
      lt_of_le_of_ne hlel hk
    have hpos : 1 ≤ commonPrefixLen key child.fragment :=
      commonPrefixLen_pos key child.fragment c hh hok.1
    have hdropf : child.fragment.drop (commonPrefixLen key child.fragment) ≠ [] :=
      drop_ne_nil _ _ hltr
    have hdropk : key.drop (commonPrefixLen key child.fragment) ≠ [] :=
      drop_ne_nil _ _ hltl
    have hne : (child.fragment.drop (commonPrefixLen key child.fragment)).headD c
        ≠ (key.drop (commonPrefixLen key child.fragment)).headD c :=
      commonPrefixLen_headD_drop_ne key child.fragment c hltl hltr
    rw [insertC_cons_split_mid _ _ _ _ _ hj hk]
    rw [childrenWF_cons_iff]
    refine ⟨ha, ?_, ?_, htl⟩
    · rw [childOK_iff]
      constructor
      · rw [Node.fragment_mk, head?_take _ _ hpos]
        exact hok.1
      · refine Or.inr ?_
        rw [Node.children_mk, setChild, if_neg hne, setChild]
        simp
    · rw [nodeWF_eq, setChild, if_neg hne, setChild]
      rw [childrenWF_cons_iff]
      refine ⟨?_, ?_, ?_, ?_⟩
      · rw [keyAbsent_cons, if_neg (Ne.symm hne)]
        rfl
      · rw [childOK_iff]
        refine ⟨?_, ?_⟩
        · rw [Node.fragment_mk]
          exact headD_eq_head? _ c hdropf
        · simpa using hok.2
      · rw [nodeWF_refrag]
        exact hnw
      · rw [childrenWF_cons_iff]
        refine ⟨rfl, ?_, ?_, rfl⟩
        · rw [childOK_iff]
          exact ⟨by rw [Node.fragment_mk]; exact headD_eq_head? _ c hdropk, Or.inl rfl⟩
        · rw [nodeWF_eq]
          rfl
  case case7 =>
    intro c2 child cstail c key newv hne ih hh hwf
    rw [insertC_cons_ne _ _ _ _ _ _ hne]
    rw [childrenWF_cons_iff] at *
    obtain ⟨ha, hok, hnw, htl⟩ := hwf
    refine ⟨?_, hok, hnw, ih hh htl⟩
    exact (keyAbsent_insertC cstail c key newv c2).mpr ⟨ha, hne⟩

theorem reachable_ingredient_insert (t : Trie α) (k : List Char) (v : Option α)
    (h : nodeWF t.root = true) : nodeWF ((t.insert k v).root) = true := by
  have hr : (t.insert k v).root = (insertN t.root k v).1 := rfl
  rw [hr]
  exact nodeWF_insertN t.root k v h

/-! ## Well-formedness is preserved by delete -/

theorem keyAbsent_cons_iff (c0 : Char) (c' : Char) (n : Node α) (rest : List (Char × Node α)) :
    keyAbsent c0 ((c', n) :: rest) = true ↔ c' ≠ c0 ∧ keyAbsent c0 rest = true := by
  rw [keyAbsent_cons]
  by_cases h : c' = c0
  · simp [h]
  · simp [h]

theorem pfxHead? (l1 l2 : List Char) (c : Char) (hp : l1 <+: l2)
    (hh : l1.head? = some c) : l2.head? = some c := by
  obtain ⟨s, rfl⟩ := hp
  cases l1 with
  | nil => simp at hh
  | cons a as => simpa using hh

theorem mergeNode_WF (c1 : Char) (child1 : Node α) (f : List Char)
    (hok : childOK c1 child1 = true) (hnw : nodeWF child1 = true) :
    nodeWF (mergeNode [(c1, child1)] f) = true ∧ f <+: (mergeNode [(c1, child1)] f).fragment ∧
    ((mergeNode [(c1, child1)] f).is_end = true
      ∨ 2 ≤ (mergeNode [(c1, child1)] f).children.length) := by
  rw [childOK_iff] at hok
  refine ⟨?_, ?_, ?_⟩
  · rw [mergeNode]
    rw [show nodeWF (Node.mk child1.children child1.is_end child1.value
      (f ++ child1.fragment)) = nodeWF child1 from nodeWF_refrag child1 _]
    exact hnw
  · rw [mergeNode, Node.fragment_mk]
    exact List.prefix_append f child1.fragment
  · rw [mergeNode]
    simpa using hok.2

theorem deleteN_WF : ∀ (n : Node α) (k : List Char) (isRoot : Bool),
    nodeWF n = true →
    ∀ n', deleteN n k isRoot = some (some n') →
      nodeWF n' = true ∧ n.fragment <+: n'.fragment ∧
      (isRoot = false → (n.is_end = true ∨ 2 ≤ n.children.length)
        → (n'.is_end = true ∨ 2 ≤ n'.children.length)) := by
  apply deleteN.induct
    (fun n k isRoot => nodeWF n = true →
      ∀ n', deleteN n k isRoot = some (some n') →
        nodeWF n' = true ∧ n.fragment <+: n'.fragment ∧
        (isRoot = false → (n.is_end = true ∨ 2 ≤ n.children.length)
          → (n'.is_end = true ∨ 2 ≤ n'.children.length)))
    (fun cs c key => childrenWF cs = true →
      ∀ b cs', deleteC cs c key = some (b, cs') →
        childrenWF cs' = true ∧ (∀ c0, keyAbsent c0 cs = true → keyAbsent c0 cs' = true)
        ∧ (b = true → cs'.length + 1 = cs.length) ∧ (b = false → cs'.length = cs.length))
  case case1 =>
    intro cs value f isRoot hwf n' hdel
    rw [deleteN_nil_eq, if_pos rfl] at hdel
    have hdel2 : afterDelete cs f isRoot = some n' := Option.some.inj hdel
    rw [nodeWF_eq] at hwf
    unfold afterDelete at hdel2
    split at hdel2
    · exact absurd hdel2 (by simp)
    · next hc1 =>
      split at hdel2
      · next hc2 =>
        simp only [Bool.and_eq_true, beq_iff_eq, Bool.not_eq_true'] at hc2
        obtain ⟨a2, hcs⟩ := List.length_eq_one.mp hc2.1
        subst hcs
        cases a2 with
        | mk c1 child1 =>
          have hm := childrenWF_mem _ c1 child1 hwf (by simp)
          have hone := Option.some.inj hdel2
          subst hone
          obtain ⟨g1, g2, g3⟩ := mergeNode_WF c1 child1 f hm.1 hm.2
          exact ⟨g1, g2, fun _ _ => g3⟩
      · next hc2 =>
        have hone := Option.some.inj hdel2
        subst hone
        refine ⟨by rw [nodeWF_eq]; exact hwf, by simp, ?_⟩
        intro hroot _
        subst hroot
        refine Or.inr ?_
        simp only [Node.children_mk]
        have h0 : cs ≠ [] := by
          intro hcs0
          subst hcs0
          simp at hc1
        have h1 : cs.length ≠ 1 := by
          intro hl
          simp [hl] at hc2
        have h0' : cs.length ≠ 0 := by simpa [List.length_eq_zero] using h0
        omega
  case case2 =>
    intro cs e value f isRoot he hwf n' hdel
    rw [deleteN_nil_eq, if_neg he] at hdel
    exact absurd hdel (by simp)
  case case3 =>
    intro cs e v f c rest isRoot hdc _ hwf n' hdel
    rw [deleteN_cons_none _ _ _ _ _ _ _ hdc] at hdel
    exact absurd hdel (by simp)
  case case4 =>
    intro cs e v f c rest isRoot cs' hdc hguard _ hwf n' hdel
    rw [deleteN_cons_pruned _ _ _ _ _ _ _ _ hdc, if_pos hguard] at hdel
    exact absurd (Option.some.inj hdel) (by simp)
  case case5 =>
    intro cs e v f c rest isRoot cs' hdc hg1 hg2 ih hwf n' hdel
    rw [deleteN_cons_pruned _ _ _ _ _ _ _ _ hdc, if_neg hg1, if_pos hg2] at hdel
    have hone := Option.some.inj (Option.some.inj hdel)
    simp only [Bool.and_eq_true, beq_iff_eq, Bool.not_eq_true'] at hg2
    rw [nodeWF_eq] at hwf
    obtain ⟨hwf', _, _, _⟩ := ih hwf true cs' hdc
    obtain ⟨a2, hcs⟩ := List.length_eq_one.mp hg2.1.1
    subst hcs
    cases a2 with
    | mk c1 child1 =>
      have hm := childrenWF_mem _ c1 child1 hwf' (by simp)
      subst hone
      obtain ⟨g1, g2, g3⟩ := mergeNode_WF c1 child1 f hm.1 hm.2
      exact ⟨g1, g2, fun _ _ => g3⟩
  case case6 =>
    intro cs e v f c rest isRoot cs' hdc hg1 hg2 ih hwf n' hdel
    rw [deleteN_cons_pruned _ _ _ _ _ _ _ _ hdc, if_neg hg1, if_neg hg2] at hdel
    have hone := Option.some.inj (Option.some.inj hdel)
    rw [nodeWF_eq] at hwf
    obtain ⟨hwf', _, _, _⟩ := ih hwf true cs' hdc
    subst hone
    refine ⟨by rw [nodeWF_eq]; exact hwf', by simp, ?_⟩
    intro hroot _
    subst hroot
    simp only [Node.is_end_mk, Node.children_mk]
    cases e with
    | true => exact Or.inl rfl
    | false =>
      refine Or.inr ?_
      have h0 : cs' ≠ [] := by
        intro hcs0
        subst hcs0
        simp at hg1
      have h1 : cs'.length ≠ 1 := by
        intro hl
        simp [hl] at hg2
      have h0' : cs'.length ≠ 0 := by simpa [List.length_eq_zero] using h0
      omega
  case case7 =>
    intro cs e v f c rest isRoot cs' hdc ih hwf n' hdel
    rw [deleteN_cons_replaced _ _ _ _ _ _ _ _ hdc] at hdel
    have hone := Option.some.inj (Option.some.inj hdel)
    rw [nodeWF_eq] at hwf
    obtain ⟨hwf', _, _, hlen⟩ := ih hwf false cs' hdc
    subst hone
    refine ⟨by rw [nodeWF_eq]; exact hwf', by simp, ?_⟩
    intro _ hbr
    simp only [Node.is_end_mk, Node.children_mk] at *
    rcases hbr with he | hl
    · exact Or.inl he
    · refine Or.inr ?_
      have := hlen (by simp)
      omega
  case case8 =>
    intro c key _ b cs' hdel
    exact absurd hdel (by simp)
  case case9 =>
    intro child cstail c key hp hdn _ hwf b cs' hdel
    rw [deleteC_cons_fail _ _ _ _ hp hdn] at hdel
    exact absurd hdel (by simp)
  case case10 =>
    intro child cstail c key hp hdn _ hwf b cs' hdel
    rw [deleteC_cons_prune _ _ _ _ hp hdn] at hdel
    simp only [Option.some.injEq, Prod.mk.injEq] at hdel
    obtain ⟨hb, hcs⟩ := hdel
    subst hb
    subst hcs
    rw [childrenWF_cons_iff] at hwf
    refine ⟨hwf.2.2.2, ?_, ?_, ?_⟩
    · intro c0 ha
      exact ((keyAbsent_cons_iff c0 c child cstail).mp ha).2
    · intro _
      simp
    · intro h
      cases h
  case case11 =>
    intro child cstail c key hp child' hdn ih hwf b cs' hdel
    rw [deleteC_cons_repl _ _ _ _ _ hp hdn] at hdel
    simp only [Option.some.injEq, Prod.mk.injEq] at hdel
    obtain ⟨hb, hcs⟩ := hdel
    subst hb
    subst hcs
    rw [childrenWF_cons_iff] at hwf
    obtain ⟨ha, hok, hnw, htl⟩ := hwf
    obtain ⟨hnw', hpf, hbr⟩ := ih hnw child' hdn
    rw [childOK_iff] at hok
    refine ⟨?_, ?_, ?_, ?_⟩
    · rw [childrenWF_cons_iff]
      refine ⟨ha, ?_, hnw', htl⟩
      rw [childOK_iff]
      exact ⟨pfxHead? _ _ _ hpf hok.1, hbr rfl hok.2⟩
    · intro c0 hka
      rw [keyAbsent_cons_iff] at *
      exact hka
    · intro h
      cases h
    · intro _
      simp
  case case12 =>
    intro child cstail c key hnp hwf b cs' hdel
    have hnp' : child.fragment.isPrefixOf key = false := by
      cases h2 : child.fragment.isPrefixOf key
      · rfl
      · exact absurd h2 hnp
    rw [deleteC_cons_notpfx _ _ _ _ hnp'] at hdel
    exact absurd hdel (by simp)
  case case13 =>
    intro c2 child cstail c key hne hdc _ hwf b cs' hdel
    rw [deleteC_cons_ne _ _ _ _ _ hne, hdc] at hdel
    exact absurd hdel (by simp)
  case case14 =>
    intro c2 child cstail c key hne b2 cs2 hdc ih hwf b cs' hdel
    rw [deleteC_cons_ne _ _ _ _ _ hne, hdc] at hdel
    simp only [Option.map_some', Option.some.injEq, Prod.mk.injEq] at hdel
    obtain ⟨hb, hcs⟩ := hdel
    subst hb
    subst hcs
    rw [childrenWF_cons_iff] at hwf
    obtain ⟨ha, hok, hnw, htl⟩ := hwf
    obtain ⟨hwf2, hkeys2, hlt, hlf⟩ := ih htl b2 cs2 hdc
    refine ⟨?_, ?_, ?_, ?_⟩
    · rw [childrenWF_cons_iff]
      exact ⟨hkeys2 c2 ha, hok, hnw, hwf2⟩
    · intro c0 hka
      rw [keyAbsent_cons_iff] at *
      exact ⟨hka.1, hkeys2 c0 hka.2⟩
    · intro hb2
      have := hlt hb2
      simp only [List.length_cons]
      omega
    · intro hb2
      have := hlf hb2
      simp only [List.length_cons]
      omega

theorem reachable_WF (t : Trie α) (h : Reachable t) : nodeWF t.root = true := by
  induction h with
  | base => rfl
  | ins t k v ht ih =>
    have hr : (t.insert k v).root = (insertN t.root k v).1 := rfl
    rw [hr]
    exact nodeWF_insertN t.root k v ih
  | del t k ht ih =>
    cases hd : deleteN t.root k true with
    | none =>
      have hroot : (t.delete k).1 = t := by simp [Trie.delete, hd]
      rw [hroot]
      exact ih
    | some o =>
      cases o with
      | none =>
        have hroot : (t.delete k).1.root = Node.mk [] false none [] := by
          simp [Trie.delete, hd]
        rw [hroot]
        rfl
      | some r =>
        have hroot : (t.delete k).1.root = r := by simp [Trie.delete, hd]
        rw [hroot]
        exact (deleteN_WF t.root k true ih r hd).1

/-- C8: in every state reachable by insert/delete operations from the empty
trie, the structural invariants hold.  `nodeWF` checks, recursively at every
node: sibling edges have pairwise distinct key characters and every edge's
fragment begins with its key character (so no two sibling edges begin with
the same first character), and every non-root node is terminal or has at
least two children (no persistent single-child pass-through nodes). -/
theorem C8_invariants_in_reachable_states (t : Trie α) (h : Reachable t) :
    nodeWF t.root = true :=
  reachable_WF t h

theorem C8_invariants_in_reachable_states_witness :
    Reachable abcTrie ∧ nodeWF abcTrie.root = true :=
  ⟨abcTrie_reachable, C8_invariants_in_reachable_states abcTrie abcTrie_reachable⟩

/-! ## Sorting lemmas for the enumeration -/

theorem insertSorted_perm (p : Char × Node α) (l : List (Char × Node α)) :
    List.Perm (insertSorted p l) (p :: l) := by
  induction l with
  | nil => simp [insertSorted]
  | cons q rest ih =>
    by_cases h : p.1 ≤ q.1
    · simp [insertSorted, h]
    · simp only [insertSorted, if_neg h]
      exact ((ih.cons q).trans (List.Perm.swap p q rest))

theorem sortChildren_perm (cs : List (Char × Node α)) : List.Perm (sortChildren cs) cs := by
  induction cs with
  | nil => simp [sortChildren]
  | cons p rest ih =>
    simp only [sortChildren]
    exact (insertSorted_perm p (sortChildren rest)).trans (ih.cons p)

theorem mem_sortChildren (q : Char × Node α) (cs : List (Char × Node α)) :
    q ∈ sortChildren cs ↔ q ∈ cs :=
  (sortChildren_perm cs).mem_iff

theorem insertSorted_sorted (p : Char × Node α) (l : List (Char × Node α))
    (h : List.Pairwise (fun a b => a.1 ≤ b.1) l) :
    List.Pairwise (fun a b => a.1 ≤ b.1) (insertSorted p l) := by
  induction l with
  | nil => simp [insertSorted]
  | cons q rest ih =>
    by_cases hle : p.1 ≤ q.1
    · simp only [insertSorted, if_pos hle]
      constructor
      · intro b hb
        rcases List.mem_cons.mp hb with rfl | hb2
        · exact hle
        · exact le_trans hle (List.rel_of_pairwise_cons h hb2)
      · exact h
    · simp only [insertSorted, if_neg hle]
      have hq : q.1 ≤ p.1 := le_of_not_le hle
      constructor
      · intro b hb
        rcases List.mem_cons.mp ((insertSorted_perm p rest).mem_iff.mp hb) with rfl | hb2
        · exact hq
        · exact List.rel_of_pairwise_cons h hb2
      · exact ih (List.Pairwise.of_cons h)

theorem sortChildren_sorted (cs : List (Char × Node α)) :
    List.Pairwise (fun a b => a.1 ≤ b.1) (sortChildren cs) := by
  induction cs with
  | nil => simp [sortChildren]
  | cons p rest ih =>
    simp only [sortChildren]
    exact insertSorted_sorted p (sortChildren rest) ih

theorem not_mem_of_keyAbsent (c0 : Char) (cs : List (Char × Node α))
    (h : keyAbsent c0 cs = true) (m : Node α) : (c0, m) ∉ cs := by
  induction cs with
  | nil => simp
  | cons p rest ih =>
    cases p with
    | mk c' n' =>
      rw [keyAbsent_cons_iff] at h
      intro hm
      rcases List.mem_cons.mp hm with h1 | h1
      · exact h.1 (congrArg Prod.fst h1).symm
      · exact ih h.2 h1

theorem childrenWF_keys_nodup (cs : List (Char × Node α)) (h : childrenWF cs = true) :
    List.Pairwise (fun a b : Char × Node α => a.1 ≠ b.1) cs := by
  induction cs with
  | nil => simp
  | cons p rest ih =>
    cases p with
    | mk c' n' =>
      rw [childrenWF_cons_iff] at h
      constructor
      · intro b hb hc
        cases b with
        | mk cb nb =>
          simp only at hc
          subst hc
          exact not_mem_of_keyAbsent c' rest h.1 nb hb
      · exact ih h.2.2.2

theorem sortChildren_strict (cs : List (Char × Node α)) (h : childrenWF cs = true) :
    List.Pairwise (fun a b => a.1 < b.1) (sortChildren cs) := by
  have h1 := sortChildren_sorted cs
  have h2 : List.Pairwise (fun a b : Char × Node α => a.1 ≠ b.1) (sortChildren cs) :=
    ((sortChildren_perm cs).pairwise_iff (fun hab => Ne.symm hab)).mpr
      (childrenWF_keys_nodup cs h)
  exact (h1.and h2).imp (fun hab => lt_of_le_of_ne hab.1 hab.2)

/-! ## The explicit stack loop produces the recursive enumeration -/

theorem collectList_join (l : List (Char × Node α)) (acc : List Char) :
    collectList l acc = (l.map (fun p => collect p.2 (acc ++ p.2.fragment))).join := by
  induction l with
  | nil => simp
  | cons p rest ih =>
    cases p with
    | mk c n =>
      rw [collectList_cons]
      simp [ih]

theorem collectLoop_join : ∀ (s : List (Node α × List Char)),
    collectLoop s = (s.map (fun p => collect p.1 p.2)).join := by
  intro s
  generalize hw : stackW s = w
  induction w using Nat.strong_induction_on generalizing s with
  | _ w ihw =>
    cases s with
    | nil => simp
    | cons p rest =>
      cases p with
      | mk n acc =>
        rw [collectLoop_cons]
        have hdec : stackW (pushes (sortChildren n.children) acc ++ rest) < w := by
          subst hw
          exact collectLoop_dec n acc rest
        rw [ihw _ hdec _ rfl]
        simp only [List.map_cons, List.join_cons, List.map_append, List.join_append]
        cases n with
        | mk cs e v f =>
          rw [collect_eq, collectList_join]
          simp only [pushes, List.map_map, Node.children_mk, Node.is_end_mk]
          simp [Function.comp, List.append_assoc, List.join]
          rfl

theorem keysWithPrefix_collect (t : Trie α) (p : List Char) (n : Node α)
    (h : findNode t.root p = some n) :
    t.keysWithPrefix p = collect n p := by
  simp [Trie.keysWithPrefix, h, collectLoop_join]

/-! ## Enumeration membership: exactly the stored keys below the landing node -/

theorem storedC_mem_eq (cs : List (Char × Node α)) (c : Char) (m : Node α)
    (hwf : childrenWF cs = true) (hm : (c, m) ∈ cs) (key : List Char) :
    storedC cs c key
      = (m.fragment.isPrefixOf key && storedN m (key.drop m.fragment.length)) := by
  induction cs with
  | nil => cases hm
  | cons p rest ih =>
    cases p with
    | mk c0 m0 =>
      rw [childrenWF_cons_iff] at hwf
      by_cases hc : c0 = c
      · subst hc
        have hmm : m = m0 := by
          rcases List.mem_cons.mp hm with h1 | h1
          · exact (Prod.mk.injEq _ _ _ _ ▸ h1).2
          · exact absurd h1 (not_mem_of_keyAbsent c0 rest hwf.1 m)
        subst hmm
        exact storedC_cons_eq m rest c0 key
      · rw [storedC_cons_ne _ _ _ _ _ hc]
        refine ih hwf.2.2.2 ?_
        rcases List.mem_cons.mp hm with h1 | h1
        · exact absurd (Prod.mk.injEq _ _ _ _ ▸ h1).1.symm hc
        · exact h1

theorem storedC_exists (cs : List (Char × Node α)) (c : Char) (key : List Char)
    (h : storedC cs c key = true) :
    ∃ m, (c, m) ∈ cs ∧ m.fragment.isPrefixOf key = true
      ∧ storedN m (key.drop m.fragment.length) = true := by
  induction cs with
  | nil => simp at h
  | cons p rest ih =>
    cases p with
    | mk c0 m0 =>
      by_cases hc : c0 = c
      · subst hc
        rw [storedC_cons_eq] at h
        simp only [Bool.and_eq_true] at h
        exact ⟨m0, by simp, h.1, h.2⟩
      · rw [storedC_cons_ne _ _ _ _ _ hc] at h
        obtain ⟨m, hm, h1, h2⟩ := ih h
        exact ⟨m, List.mem_cons_of_mem _ hm, h1, h2⟩

theorem collect_mem : ∀ (n : Node α) (acc : List Char), nodeWF n = true →
    ∀ k, k ∈ collect n acc ↔ ∃ s, k = acc ++ s ∧ storedN n s = true := by
  apply collect.induct
    (fun n acc => nodeWF n = true →
      ∀ k, k ∈ collect n acc ↔ ∃ s, k = acc ++ s ∧ storedN n s = true)
    (fun l acc => (∀ c m, (c, m) ∈ l → nodeWF m = true) →
      ∀ k, k ∈ collectList l acc
        ↔ ∃ c m, (c, m) ∈ l ∧ ∃ s', k = (acc ++ m.fragment) ++ s' ∧ storedN m s' = true)
  case case1 =>
    intro cs e v f acc ih hwf k
    rw [nodeWF_eq] at hwf
    have hmem : ∀ c m, (c, m) ∈ sortChildren cs → nodeWF m = true := fun c m hm =>
      (childrenWF_mem cs c m hwf ((mem_sortChildren _ _).mp hm)).2
    rw [collect_eq]
    rw [List.mem_append]
    constructor
    · rintro (hy | hb)
      · have he : e = true ∧ k = acc := by
          cases e <;> simpa using hy
        exact ⟨[], by simp [he.2], by rw [storedN_nil]; simpa using he.1⟩
      · obtain ⟨c, m, hm', s', rfl, hst⟩ := (ih hmem k).mp hb
        have hmcs : (c, m) ∈ cs := (mem_sortChildren _ _).mp hm'
        have hok := (childrenWF_mem cs c m hwf hmcs).1
        rw [childOK_iff] at hok
        refine ⟨m.fragment ++ s', by simp, ?_⟩
        cases hfr : m.fragment with
        | nil => rw [hfr] at hok; simp at hok
        | cons c1 ftail =>
          rw [hfr] at hok
          have hc1 : c1 = c := by simpa using hok.1
          subst hc1
          rw [List.cons_append, storedN_cons]
          rw [storedC_mem_eq cs c1 m hwf hmcs]
          have hpf : m.fragment.isPrefixOf (c1 :: (ftail ++ s')) = true := by
            rw [List.isPrefixOf_iff_prefix, hfr]
            exact ⟨s', by simp⟩
          rw [hpf]
          have hdrop : (c1 :: (ftail ++ s')).drop m.fragment.length = s' := by
            rw [hfr]
            have := List.drop_left (c1 :: ftail) s'
            simpa using this
          rw [hdrop, hst]
          rfl
    · rintro ⟨s, rfl, hst⟩
      cases s with
      | nil =>
        rw [storedN_nil] at hst
        simp only [Node.is_end_mk] at hst
        exact Or.inl (by simp [hst])
      | cons c1 s0 =>
        rw [storedN_cons] at hst
        obtain ⟨m, hmem', hpf, hst'⟩ := storedC_exists cs c1 (c1 :: s0) hst
        refine Or.inr ?_
        refine (ih hmem (acc ++ (c1 :: s0))).mpr ?_
        obtain ⟨t, heq⟩ := List.isPrefixOf_iff_prefix.mp hpf
        refine ⟨c1, m, (mem_sortChildren _ _).mpr hmem', (c1 :: s0).drop m.fragment.length,
          ?_, hst'⟩
        rw [← heq, List.drop_left, List.append_assoc]
  case case2 =>
    intro acc _ k
    simp
  case case3 =>
    intro c1 n rest acc ih1 ih2 hmem k
    rw [collectList_cons, List.mem_append]
    have hn : nodeWF n = true := hmem c1 n (by simp)
    have hrest : ∀ c m, (c, m) ∈ rest → nodeWF m = true := fun c m hm =>
      hmem c m (List.mem_cons_of_mem _ hm)
    rw [ih1 hn k, ih2 hrest k]
    constructor
    · rintro (⟨s, rfl, hst⟩ | ⟨c, m, hm', s', rfl, hst⟩)
      · exact ⟨c1, n, by simp, s, rfl, hst⟩
      · exact ⟨c, m, List.mem_cons_of_mem _ hm', s', rfl, hst⟩
    · rintro ⟨c, m, hm', s', rfl, hst⟩
      rcases List.mem_cons.mp hm' with h1 | h1
      · obtain ⟨hc, hm⟩ := Prod.mk.injEq _ _ _ _ ▸ h1
        subst hm
        exact Or.inl ⟨s', rfl, hst⟩
      · exact Or.inr ⟨c, m, h1, s', rfl, hst⟩

/-! ## Enumeration order: strictly ascending lexicographic -/

theorem lexPfx (l s : List Char) (hs : s ≠ []) : List.Lex (· < ·) l (l ++ s) := by
  induction l with
  | nil =>
    cases s with
    | nil => exact absurd rfl hs
    | cons a t => exact List.Lex.nil
  | cons a l2 ih => exact List.Lex.cons ih

theorem lex_cross_head (acc t1 t2 : List Char) (c1 c2 : Char) (h : c1 < c2) :
    List.Lex (· < ·) (acc ++ c1 :: t1) (acc ++ c2 :: t2) := by
  induction acc with
  | nil => exact List.Lex.rel h
  | cons a acc2 ih => exact List.Lex.cons ih

theorem lex_of_prefixes (acc k1 k2 : List Char) (c1 c2 : Char) (h : c1 < c2)
    (h1 : (acc ++ [c1]) <+: k1) (h2 : (acc ++ [c2]) <+: k2) : List.Lex (· < ·) k1 k2 := by
  obtain ⟨t1, rfl⟩ := h1
  obtain ⟨t2, rfl⟩ := h2
  rw [List.append_assoc, List.append_assoc]
  exact lex_cross_head acc _ _ c1 c2 h

theorem collect_sorted : ∀ (n : Node α) (acc : List Char), nodeWF n = true →
    List.Pairwise (List.Lex (· < ·)) (collect n acc)
      ∧ ∀ k ∈ collect n acc, acc <+: k := by
  apply collect.induct
    (fun n acc => nodeWF n = true →
      List.Pairwise (List.Lex (· < ·)) (collect n acc)
        ∧ ∀ k ∈ collect n acc, acc <+: k)
    (fun l acc =>
      (∀ c m, (c, m) ∈ l → nodeWF m = true ∧ m.fragment.head? = some c) →
      List.Pairwise (fun a b => a.1 < b.1) l →
      List.Pairwise (List.Lex (· < ·)) (collectList l acc)
        ∧ ∀ k ∈ collectList l acc, ∃ c m, (c, m) ∈ l ∧ (acc ++ [c]) <+: k)
  case case1 =>
    intro cs e v f acc ih hwf
    rw [nodeWF_eq] at hwf
    have hmem : ∀ c m, (c, m) ∈ sortChildren cs → nodeWF m = true ∧ m.fragment.head? = some c := by
      intro c m hm
      have h2 := childrenWF_mem cs c m hwf ((mem_sortChildren _ _).mp hm)
      rw [childOK_iff] at h2
      exact ⟨h2.2, h2.1.1⟩
    obtain ⟨hp, hpre⟩ := ih hmem (sortChildren_strict cs hwf)
    rw [collect_eq]
    constructor
    · rw [List.pairwise_append]
      refine ⟨?_, hp, ?_⟩
      · cases e <;> simp
      · intro a ha b hb
        have ha' : a = acc := by
          cases e <;> simpa using ha
        obtain ⟨c, m, _, hcp⟩ := hpre b hb
        obtain ⟨t, rfl⟩ := hcp
        rw [ha', List.append_assoc]
        exact lexPfx acc (c :: t) (by simp)
    · intro k hk
      rcases List.mem_append.mp hk with hy | hb
      · have hk' : k = acc := by cases e <;> simpa using hy
        rw [hk']
      · obtain ⟨c, m, _, hcp⟩ := hpre k hb
        exact List.IsPrefix.trans ⟨[c], rfl⟩ hcp
  case case2 =>
    intro acc _ _
    simp
  case case3 =>
    intro c1 n rest acc ih1 ih2 hmem hsort
    have hn := hmem c1 n (by simp)
    have hrest : ∀ c m, (c, m) ∈ rest → nodeWF m = true ∧ m.fragment.head? = some c :=
      fun c m hm => hmem c m (List.mem_cons_of_mem _ hm)
    obtain ⟨hp1, hpre1⟩ := ih1 hn.1
    obtain ⟨hp2, hpre2⟩ := ih2 hrest (List.Pairwise.of_cons hsort)
    obtain ⟨ftail, hfr⟩ : ∃ t, n.fragment = c1 :: t := by
      cases hf : n.fragment with
      | nil =>
        rw [hf] at hn
        simp at hn
      | cons a t =>
        rw [hf] at hn
        have ha : a = c1 := by simpa using hn.2
        exact ⟨t, by rw [ha]⟩
    have hpre1' : ∀ k ∈ collect n (acc ++ n.fragment), (acc ++ [c1]) <+: k := by
      intro k hk
      refine List.IsPrefix.trans ?_ (hpre1 k hk)
      rw [hfr]
      exact ⟨ftail, by simp⟩
    rw [collectList_cons]
    constructor
    · rw [List.pairwise_append]
      refine ⟨hp1, hp2, ?_⟩
      intro a ha b hb
      obtain ⟨c2, m2, hm2, hcp2⟩ := hpre2 b hb
      have hclt : c1 < c2 := List.rel_of_pairwise_cons hsort hm2
      exact lex_of_prefixes acc a b c1 c2 hclt (hpre1' a ha) hcp2
    · intro k hk
      rcases List.mem_append.mp hk with h1 | h2
      · exact ⟨c1, n, by simp, hpre1' k h1⟩
      · obtain ⟨c2, m2, hm2, hcp⟩ := hpre2 k h2
        exact ⟨c2, m2, List.mem_cons_of_mem _ hm2, hcp⟩

/-- C7: in every reachable state, enumerating with the empty prefix yields
exactly the stored keys (each exactly once, since the output is strictly
ascending) in strictly ascending lexicographic order under the natural
`Char` ordering. -/
theorem C7_enumerate_empty_prefix_sorted (t : Trie α) (h : Reachable t) :
    List.Pairwise (List.Lex (· < ·)) (t.keysWithPrefix []) ∧
    (∀ k, k ∈ t.keysWithPrefix [] ↔ t.stored k = true) := by
  have hwf := reachable_WF t h
  have hcol := keysWithPrefix_collect t [] t.root (findNode_nil t.root)
  rw [hcol]
  refine ⟨(collect_sorted t.root [] hwf).1, ?_⟩
  intro k
  rw [collect_mem t.root [] hwf k]
  constructor
  · rintro ⟨s, rfl, hst⟩
    simpa [Trie.stored] using hst
  · intro hst
    exact ⟨k, by simp, hst⟩

theorem C7_enumerate_empty_prefix_sorted_witness :
    Reachable batTrie ∧
    List.Pairwise (List.Lex (· < ·)) (batTrie.keysWithPrefix []) ∧
    (chars "bat" ∈ batTrie.keysWithPrefix [] ↔ batTrie.stored (chars "bat") = true) := by
  have hr : Reachable batTrie :=
    Reachable.ins _ _ _ (Reachable.ins _ _ _ (Reachable.ins _ _ _ Reachable.base))
  exact ⟨hr, (C7_enumerate_empty_prefix_sorted batTrie hr).1,
    (C7_enumerate_empty_prefix_sorted batTrie hr).2 (chars "bat")⟩

/-! ## Prefix queries: the walk succeeds exactly below stored keys (C9) -/

theorem prefix_drop (p k : List Char) (n : Nat) (h : p <+: k) (hn : n ≤ p.length) :
    p.drop n <+: k.drop n := by
  obtain ⟨t, rfl⟩ := h
  rw [List.drop_append_of_le_length hn]
  exact ⟨t, rfl⟩

theorem head?_append_left (l s : List Char) (h : l ≠ []) : (l ++ s).head? = l.head? := by
  cases l with
  | nil => exact absurd rfl h
  | cons a t => simp

theorem exists_stored : ∀ (n : Node α), nodeWF n = true →
    (n.is_end = true ∨ 2 ≤ n.children.length) → ∃ s, storedN n s = true := by
  intro n
  induction n using Node.memInd with
  | _ cs e v f ih =>
    intro hwf hbr
    cases e with
    | true => exact ⟨[], by rw [storedN_nil]; rfl⟩
    | false =>
      rw [nodeWF_eq] at hwf
      simp only [Node.is_end_mk, Node.children_mk] at hbr
      rcases hbr with hcontra | hlen
      · cases hcontra
      · cases cs with
        | nil => simp at hlen
        | cons q rest =>
          cases q with
          | mk c m =>
            have hm := childrenWF_mem _ c m hwf (by simp)
            rw [childOK_iff] at hm
            obtain ⟨s', hst⟩ := ih c m (by simp) hm.2
              (by rcases hm.1.2 with h1 | h1; exact Or.inl h1; exact Or.inr h1)
            obtain ⟨ftail, hfr⟩ : ∃ t2, m.fragment = c :: t2 := by
              cases hf2 : m.fragment with
              | nil => rw [hf2] at hm; simp at hm
              | cons a t2 =>
                rw [hf2] at hm
                have ha : a = c := by simpa using hm.1.1
                exact ⟨t2, by rw [ha]⟩
            refine ⟨m.fragment ++ s', ?_⟩
            rw [hfr, List.cons_append, storedN_cons, storedC_cons_eq]
            have hpf : m.fragment.isPrefixOf (c :: (ftail ++ s')) = true := by
              rw [List.isPrefixOf_iff_prefix, hfr]
              exact ⟨s', by simp⟩
            rw [hpf]
            have hdrop : (c :: (ftail ++ s')).drop m.fragment.length = s' := by
              rw [hfr]
              have h2 := List.drop_left (c :: ftail) s'
              simpa using h2
            rw [hdrop, hst]
            rfl

theorem findNode_stored_above : ∀ (n : Node α) (key : List Char), nodeWF n = true →
    key ≠ [] → ∀ m, findNode n key = some m →
    ∃ k, storedN n k = true ∧ key <+: k := by
  apply findNode.induct
    (fun n key => nodeWF n = true → key ≠ [] → ∀ m, findNode n key = some m →
      ∃ k, storedN n k = true ∧ key <+: k)
    (fun cs c key => childrenWF cs = true → ∀ m, findNodeC cs c key = some m →
      ∃ k, k.head? = some c ∧ storedC cs c k = true ∧ key <+: k)
  case case1 =>
    intro n _ hne _ _
    exact absurd rfl hne
  case case2 =>
    intro cs e v f c rest ih hwf _ m hm
    rw [findNode_cons] at hm
    rw [nodeWF_eq] at hwf
    obtain ⟨k, hh, hst, hpre⟩ := ih hwf m hm
    cases k with
    | nil => simp at hh
    | cons c0 k0 =>
      have hc0 : c0 = c := by simpa using hh
      subst hc0
      exact ⟨c0 :: k0, by rw [storedN_cons]; exact hst, hpre⟩
  case case3 =>
    intro c key hwf m hm
    simp at hm
  case case4 =>
    intro child cstail c key
    dsimp only
    intro hlt hkey hwf m hm
    rw [childrenWF_cons_iff] at hwf
    obtain ⟨ha, hok, hnw, htl⟩ := hwf
    rw [childOK_iff] at hok
    obtain ⟨s, hst⟩ := exists_stored child hnw hok.2
    have hfrne : child.fragment ≠ [] := by
      intro h0
      rw [h0] at hok
      simp at hok
    refine ⟨child.fragment ++ s, ?_, ?_, ?_⟩
    · rw [head?_append_left _ _ hfrne]
      exact hok.1
    · rw [storedC_cons_eq]
      have hpf : child.fragment.isPrefixOf (child.fragment ++ s) = true := by
        rw [List.isPrefixOf_iff_prefix]
        exact ⟨s, rfl⟩
      rw [hpf, List.drop_left, hst]
      rfl
    · have htake := take_commonPrefixLen_eq key child.fragment
      rw [hkey, List.take_length] at htake
      rw [htake]
      exact List.IsPrefix.trans (List.take_prefix _ _) (List.prefix_append _ _)
  case case5 =>
    intro child cstail c key
    dsimp only
    intro hlt hne hwf m hm
    rw [findNodeC_cons_mid_ne _ _ _ _ hlt hne] at hm
    cases hm
  case case6 =>
    intro child cstail c key
    dsimp only
    intro hnlt ih hwf m hm
    rw [childrenWF_cons_iff] at hwf
    obtain ⟨ha, hok, hnw, htl⟩ := hwf
    rw [childOK_iff] at hok
    have hfrne : child.fragment ≠ [] := by
      intro h0
      rw [h0] at hok
      simp at hok
    have hle := commonPrefixLen_le_right key child.fragment
    have hlel := commonPrefixLen_le_left key child.fragment
    have hj : commonPrefixLen key child.fragment = child.fragment.length := by omega
    have htake2 : key.take child.fragment.length = child.fragment := by
      have h4 := take_commonPrefixLen_eq key child.fragment
      rw [hj, List.take_length] at h4
      exact h4
    rw [findNodeC_cons_descend _ _ _ _ hnlt] at hm
    rw [hj] at ih hm
    by_cases hdk : key.drop child.fragment.length = []
    · obtain ⟨s, hst⟩ := exists_stored child hnw hok.2
      have hkl : key.length ≤ child.fragment.length := by
        have h5 := List.drop_eq_nil_iff_le.mp hdk
        exact h5
      have htk : key.take child.fragment.length = key :=
        List.take_of_length_le hkl
      have hkeq : key = child.fragment := htk.symm.trans htake2
      refine ⟨child.fragment ++ s, ?_, ?_, ?_⟩
      · rw [head?_append_left _ _ hfrne]
        exact hok.1
      · rw [storedC_cons_eq]
        have hpf : child.fragment.isPrefixOf (child.fragment ++ s) = true := by
          rw [List.isPrefixOf_iff_prefix]
          exact ⟨s, rfl⟩
        rw [hpf, List.drop_left, hst]
        rfl
      · rw [hkeq]
        exact List.prefix_append _ _
    · obtain ⟨k', hst', hpre'⟩ := ih hnw hdk m hm
      refine ⟨child.fragment ++ k', ?_, ?_, ?_⟩
      · rw [head?_append_left _ _ hfrne]
        exact hok.1
      · rw [storedC_cons_eq]
        have hpf : child.fragment.isPrefixOf (child.fragment ++ k') = true := by
          rw [List.isPrefixOf_iff_prefix]
          exact ⟨k', rfl⟩
        rw [hpf, List.drop_left, hst']
        rfl
      · have hkey2 : key = child.fragment ++ key.drop child.fragment.length := by
          conv_lhs => rw [← List.take_append_drop child.fragment.length key]
          rw [htake2]
        rw [hkey2]
        obtain ⟨t, rfl⟩ := hpre'
        exact ⟨t, by simp⟩
  case case7 =>
    intro c2 child cstail c key hne ih hwf m hm
    rw [childrenWF_cons_iff] at hwf
    rw [findNodeC_cons_ne _ _ _ _ _ hne] at hm
    obtain ⟨k, hh, hst, hpre⟩ := ih hwf.2.2.2 m hm
    refine ⟨k, hh, ?_, hpre⟩
    cases k with
    | nil => simp at hh
    | cons c0 k0 =>
      have hc0 : c0 = c := by simpa using hh
      subst hc0
      rw [storedC_cons_ne _ _ _ _ _ hne]
      exact hst

theorem stored_prefix_findNode : ∀ (n : Node α) (k : List Char), storedN n k = true →
    ∀ p, p <+: k → (findNode n p).isSome = true := by
  apply storedN.induct
    (fun n k => storedN n k = true → ∀ p, p <+: k → (findNode n p).isSome = true)
    (fun cs c key => storedC cs c key = true →
      ∀ p, p <+: key → p ≠ [] → p.head? = some c → (findNodeC cs c p).isSome = true)
  case case1 =>
    intro n hst p hp
    have hp0 : p = [] := List.prefix_nil.mp hp
    subst hp0
    rw [findNode_nil]
    rfl
  case case2 =>
    intro cs e v f c rest ih hst p hp
    rw [storedN_cons] at hst
    cases p with
    | nil => rw [findNode_nil]; rfl
    | cons c0 p0 =>
      have hc0 : c0 = c := by
        obtain ⟨t, ht⟩ := hp
        have := congrArg List.head? ht.symm
        simp at this
        exact this.symm
      subst hc0
      rw [findNode_cons]
      exact ih hst (c0 :: p0) hp (by simp) (by simp)
  case case3 =>
    intro c key hst p hp hne hh
    simp at hst
  case case4 =>
    intro child cstail c key ih hst p hp hne hh
    rw [storedC_cons_eq] at hst
    simp only [Bool.and_eq_true] at hst
    obtain ⟨hpf, hst'⟩ := hst
    have hfk : child.fragment <+: key := List.isPrefixOf_iff_prefix.mp hpf
    by_cases hcase : p.length ≤ child.fragment.length
    · have hpf2 : p <+: child.fragment := List.prefix_of_prefix_length_le hp hfk hcase
      have hj : commonPrefixLen p child.fragment = p.length :=
        commonPrefixLen_of_prefix_left p child.fragment hpf2
      by_cases heq : p.length = child.fragment.length
      · have hpeq : p = child.fragment := List.IsPrefix.eq_of_length hpf2 heq
        have hnlt : ¬ commonPrefixLen p child.fragment < child.fragment.length := by omega
        rw [findNodeC_cons_descend _ _ _ _ hnlt, hj]
        rw [List.drop_length, findNode_nil]
        rfl
      · have hlt : commonPrefixLen p child.fragment < child.fragment.length := by omega
        rw [findNodeC_cons_mid _ _ _ _ hlt hj]
        rfl
    · have hfp : child.fragment <+: p := by
        refine List.prefix_of_prefix_length_le hfk hp ?_
        omega
      have hj : commonPrefixLen p child.fragment = child.fragment.length :=
        (commonPrefixLen_eq_right_iff p child.fragment).mpr hfp
      have hnlt : ¬ commonPrefixLen p child.fragment < child.fragment.length := by omega
      rw [findNodeC_cons_descend _ _ _ _ hnlt, hj]
      refine ih hst' (p.drop child.fragment.length) ?_
      exact prefix_drop p key child.fragment.length hp (by omega)
  case case5 =>
    intro c2 child cstail c key hne2 ih hst p hp hne hh
    rw [storedC_cons_ne _ _ _ _ _ hne2] at hst
    cases p with
    | nil => exact absurd rfl hne
    | cons c0 p0 =>
      have hc0 : c0 = c := by simpa using hh
      subst hc0
      rw [findNodeC_cons_ne _ _ _ _ _ hne2]
      exact ih hst (c0 :: p0) hp hne hh

/-- C9, counterexample to the claim as stated: on the freshly created empty
trie no key is stored, yet `starts_with("")` returns true (the walk lands on
the root), so "true iff some stored key has p as a literal prefix" fails at
`p = ""`. -/
theorem C9_empty_prefix_on_empty_trie :
    (Trie.empty : Trie Nat).startsWith [] = true ∧
    ∀ k, (Trie.empty : Trie Nat).stored k = false := by
  refine ⟨rfl, ?_⟩
  intro k
  cases k with
  | nil => rfl
  | cons c rest => rfl

/-- C9, amended: for every reachable trie state and every string `p`,
`starts_with(p)` returns true iff `p` is empty or some currently stored key
has `p` as a literal prefix (including `p` equal to a stored key and walks
that end mid-fragment).  The only change from the original claim is the
"`p` is empty" disjunct, forced by the empty trie. -/
theorem C9_starts_with_iff_stored_above (t : Trie α) (p : List Char) (h : Reachable t) :
    t.startsWith p = true ↔ (p = [] ∨ ∃ k, t.stored k = true ∧ p <+: k) := by
  have hwf := reachable_WF t h
  constructor
  · intro hs
    cases p with
    | nil => exact Or.inl rfl
    | cons c rest =>
      rw [Trie.startsWith] at hs
      cases hm : findNode t.root (c :: rest) with
      | none => rw [hm] at hs; simp at hs
      | some m =>
        obtain ⟨k, hst, hpre⟩ := findNode_stored_above t.root (c :: rest) hwf (by simp) m hm
        exact Or.inr ⟨k, hst, hpre⟩
  · rintro (rfl | ⟨k, hst, hpre⟩)
    · rw [Trie.startsWith, findNode_nil]
      rfl
    · exact stored_prefix_findNode t.root k hst p hpre

theorem C9_starts_with_iff_stored_above_witness :
    Reachable appleTrie ∧ appleTrie.startsWith (chars "app") = true := by
  have hr : Reachable appleTrie := Reachable.ins _ _ _ Reachable.base
  refine ⟨hr, ?_⟩
  exact (C9_starts_with_iff_stored_above appleTrie (chars "app") hr).mpr
    (Or.inr ⟨chars "apple", by decide, by decide⟩)

/-- C10: a key inserted with value `None` is invisible to the lookup
interface: `search` returns `None` (the absent sentinel) and `__contains__`
reports false, although the key is genuinely stored — it is counted by
`size()` (the counter grows when the key was new) and yielded by
`enumerate_with_prefix("")`. -/
theorem C10_value_none_indistinguishable (t : Trie α) (k : List Char) (h : Reachable t) :
    (t.insert k none).search k = none ∧
    (t.insert k none).containsKey k = false ∧
    (t.insert k none).stored k = true ∧
    k ∈ (t.insert k none).keysWithPrefix [] ∧
    (t.stored k = false → (t.insert k none).size = t.size + 1) := by
  have hwf := reachable_WF t h
  have hr : (t.insert k none).root = (insertN t.root k none).1 := rfl
  obtain ⟨m, hm, he, hv⟩ := findNode_insertN t.root k none
  have hs : (t.insert k none).search k = none := by
    simp [Trie.search, hr, hm, he, hv]
  refine ⟨hs, ?_, ?_, ?_, ?_⟩
  · simp [Trie.containsKey, hs]
  · have h2 := storedN_insertN t.root k none
    simpa [Trie.stored, hr] using h2
  · have hwf' : nodeWF (t.insert k none).root = true := by
      rw [hr]
      exact nodeWF_insertN t.root k none hwf
    rw [keysWithPrefix_collect (t.insert k none) [] _ (findNode_nil _)]
    rw [collect_mem _ [] hwf' k]
    refine ⟨k, by simp, ?_⟩
    rw [hr]
    exact storedN_insertN t.root k none
  · intro hns
    have hg := insertN_grew t.root k none
    rw [show t.stored k = storedN t.root k from rfl] at hns
    rw [hns] at hg
    simp only [Bool.not_false] at hg
    simp [Trie.insert_size, hg]

theorem C10_value_none_indistinguishable_witness :
    (appleTrie.insert (chars "xy") none).search (chars "xy") = none ∧
    (appleTrie.insert (chars "xy") none).containsKey (chars "xy") = false ∧
    (appleTrie.insert (chars "xy") none).stored (chars "xy") = true ∧
    chars "xy" ∈ (appleTrie.insert (chars "xy") none).keysWithPrefix [] ∧
    (appleTrie.insert (chars "xy") none).size = appleTrie.size + 1 := by
  have hr : Reachable appleTrie := Reachable.ins _ _ _ Reachable.base
  have h := C10_value_none_indistinguishable appleTrie (chars "xy") hr
  exact ⟨h.1, h.2.1, h.2.2.1, h.2.2.2.1, h.2.2.2.2 (by decide)⟩

end TrieVerify
